import Mathlib

/-!
Verification development for the flow-pilot run execution engine
(backend/app/services/executor_service.py and browser_service.py).

The Python source is shallowly embedded: pure helpers become Lean
functions on `String`/`List Char`; the per-run execution loop becomes an
executable state-passing function over per-step outcome oracles; the
resolution broker and the event bus become small pure state models.
-/

namespace FlowPilot

/-! ## String utilities shared by several embedded functions -/

/-- Boolean substring test: does `sub` occur inside `hay`?  Models the
Python expression `sub in hay` on strings (an empty needle matches). -/
def listContainsSub (sub : List Char) : List Char → Bool
  | [] => sub.isPrefixOf []
  | c :: t => sub.isPrefixOf (c :: t) || listContainsSub sub t

/-- String wrapper for `listContainsSub`. -/
def strContains (hay sub : String) : Bool :=
  listContainsSub sub.data hay.data

/-- Accumulator worker for `digitRuns`. -/
def digitRunsAux (acc : List Char) : List Char → List String
  | [] => if acc.isEmpty then [] else [String.mk acc.reverse]
  | c :: rest =>
    if c.isDigit then digitRunsAux (c :: acc) rest
    else if acc.isEmpty then digitRunsAux [] rest
    else String.mk acc.reverse :: digitRunsAux [] rest

/-- Maximal runs of ASCII digits of a string, in order.  Models
`re.findall(r"\d+", s)` for ASCII input. -/
def digitRuns (s : String) : List String := digitRunsAux [] s.data

/-- Numeric value of a digit string; models Python `int(...)` applied to
the (always nonempty, all-digit) matches of `re.findall(r"\d+", ...)`. -/
def strToNat (s : String) : Nat :=
  s.data.foldl (fun n c => 10 * n + (c.toNat - 48)) 0

/-- ASCII lowering of one character (models Python `str.lower()` for the
ASCII range the embedded strings use). -/
def charLower (c : Char) : Char :=
  if 65 ≤ c.toNat ∧ c.toNat ≤ 90 then Char.ofNat (c.toNat + 32) else c

/-- ASCII lowering of a string; models Python `str.lower()`. -/
def strLower (s : String) : String := String.mk (s.data.map charLower)

/-! ## C1: ExecutorService._evaluate_condition (executor_service.py 912-930) -/

/-- Keys of the previous-step data that make the rule-based fallback treat
the data as "present" (executor_service.py line 917). -/
def conditionDataKeys : List String :=
  ["content", "items_extracted", "products", "articles", "profiles",
   "results", "posts", "tables"]

/-- Keywords that suggest data quality (executor_service.py line 928). -/
def conditionQualityWords : List String :=
  ["valid", "exists", "found", "quality", "success"]

/-- Shallow embedding of `ExecutorService._evaluate_condition`
(executor_service.py lines 912-930).  `prevKeys` is the list of keys of
the previous step's result dict (its truthiness is `prevKeys ≠ []`).
Note the comparison branch extracts the digit runs of the condition and
always tests `int(numbers[0]) > int(numbers[1])`, for `<` and `>` alike. -/
def evaluateCondition (condition : String) (prevKeys : List String) : Bool :=
  let condLower := strLower condition
  if conditionDataKeys.any (fun k => prevKeys.contains k) then
    if strContains condition "<" || strContains condition ">" then
      match digitRuns condition with
      | a :: b :: _ => strToNat a > strToNat b
      | _ => true
    else true
  else if conditionQualityWords.any (fun w => strContains condLower w) then
    !prevKeys.isEmpty
  else
    true

/-! ## C4: resolution broker (executor_service.py 1129-1150) -/

/-- Models `ExecutorService.resolve_step` writing into `_resolutions`
(executor_service.py lines 1144-1150): the decision overwrites whatever
is buffered for the key. -/
def resolveStep (buf : Option String) (action : String) : Option String :=
  let _ := buf
  some action

/-- Result of one `_wait_for_resolution` call. -/
structure WaitOutcome where
  decision : String
  timedOut : Bool
  bufferAfter : Option String
deriving DecidableEq, Repr

/-- Shallow embedding of `ExecutorService._wait_for_resolution`
(executor_service.py lines 1132-1142).  `pre` is the decision buffered in
`_resolutions` before the wait starts; `during` are the decisions from
`resolve_step` calls arriving while the wait is blocked (modelled as all
landing before the waiter wakes).  The wait creates a fresh event, so a
pre-buffered decision alone never wakes it: with no resolve during the
wait the 300 s timeout fires and "abort" is returned, and the buffered
decision is left in place (the pop happens only on the success path). -/
def waitForResolution (pre : Option String) (during : List String) : WaitOutcome :=
  match during with
  | [] => ⟨"abort", true, pre⟩
  | _ :: _ =>
    let buf := during.foldl resolveStep pre
    ⟨buf.getD "abort", false, none⟩

/-! ## C5: event bus (executor_service.py 390-412) -/

/-- `asyncio.Queue()` is created with its default `maxsize`, which is 0,
meaning unbounded (executor_service.py line 397). -/
def queueMaxsize : Nat := 0

/-- Models `await queue.put(event)`: with `maxsize` 0 the queue is never
full, so a put always appends and nothing is ever dropped. -/
def qput {α : Type} (q : List α) (e : α) : List α := q ++ [e]

/-- Models `ExecutorService._emit` (executor_service.py lines 408-412):
the event is put on every subscriber queue of the run. -/
def emitToQueues {α : Type} (queues : List (List α)) (e : α) : List (List α) :=
  queues.map (fun q => qput q e)

/-- Repeated emission of a list of events. -/
def emitAll {α : Type} (queues : List (List α)) (es : List α) : List (List α) :=
  es.foldl emitToQueues queues

/-- Models `ExecutorService.subscribe` (executor_service.py lines
393-399): a fresh empty queue is appended to the run's subscriber list. -/
def subscribeQueue {α : Type} (queues : List (List α)) : List (List α) :=
  queues ++ [[]]

/-! ## C6: ExecutorService._interpolate_variables (executor_service.py 414-425)
and the interpolation pass of start_run (437-463) -/

/-- Values of the workflow variable map, as the Python code distinguishes
them: a string, a dict of string entries, or `None`. -/
inductive PyVal where
  | pstr (s : String)
  | pdict (pairs : List (String × String))
  | pnone
deriving DecidableEq, Repr

/-- Python `str.strip()` on the key captured by the placeholder regex
(ASCII whitespace). -/
def stripChars (l : List Char) : List Char :=
  ((l.dropWhile Char.isWhitespace).reverse.dropWhile Char.isWhitespace).reverse

/-- The `{` character. -/
def lbrace : Char := Char.ofNat 123

/-- The `}` character. -/
def rbrace : Char := Char.ofNat 125

/-- Scanner for the non-greedy tail of the regex `\{\{(.+?)\}\}` once the
opening braces are consumed: it finds the first position `j ≥ 1` where two
consecutive closing braces occur, provided no newline appears before it
(`.` does not match a newline).  Returns the inner text and the remainder
after the closing braces. -/
def scanInner : List Char → List Char → Option (List Char × List Char)
  | _, [] => none
  | acc, c :: rest =>
    if c = rbrace then
      match rest with
      | c2 :: rest2 =>
        if c2 = rbrace then
          if acc.isEmpty then scanInner [c] rest else some (acc.reverse, rest2)
        else scanInner (c :: acc) rest
      | [] => scanInner (c :: acc) rest
    else if c = '\n' then none
    else scanInner (c :: acc) rest

theorem scanInner_length :
    ∀ (l acc i t : List Char), scanInner acc l = some (i, t) → t.length ≤ l.length := by
  intro l
  induction l with
  | nil => intro acc i t h; simp [scanInner] at h
  | cons c rest ih =>
    intro acc i t h
    simp only [scanInner] at h
    by_cases hc : c = rbrace
    · simp only [if_pos hc] at h
      cases rest with
      | nil =>
        have := ih (c :: acc) i t h
        exact Nat.le_succ_of_le this
      | cons c2 rest2 =>
        by_cases hc2 : c2 = rbrace
        · simp only [if_pos hc2] at h
          by_cases hacc : acc.isEmpty
          · simp only [if_pos hacc] at h
            have := ih [c] i t h
            exact Nat.le_succ_of_le this
          · simp only [if_neg hacc] at h
            obtain ⟨rfl, rfl⟩ : acc.reverse = i ∧ rest2 = t := by
              simpa using h
            simp only [List.length_cons]
            omega
        · simp only [if_neg hc2] at h
          have := ih (c :: acc) i t h
          exact Nat.le_succ_of_le this
    · simp only [if_neg hc] at h
      by_cases hn : c = '\n'
      · simp [if_pos hn] at h
      · simp only [if_neg hn] at h
        have := ih (c :: acc) i t h
        exact Nat.le_succ_of_le this

/-- Models the `replace_match` closure of `_interpolate_variables`
(executor_service.py lines 419-424): the captured key is stripped and
looked up; a truthy dict is replaced by its `value` entry with the whole
match as default; a falsy non-`None` value is replaced by its `str` (for
the empty dict this is the literal text `\x7b\x7d`); `None` or an absent
key leaves the match unchanged. -/
def replaceMatch (vars : List (String × PyVal)) (inner : List Char) : List Char :=
  let matched := lbrace :: lbrace :: (inner ++ [rbrace, rbrace])
  let key := String.mk (stripChars inner)
  match vars.lookup key with
  | none => matched
  | some PyVal.pnone => matched
  | some (PyVal.pstr s) => s.data
  | some (PyVal.pdict []) => [lbrace, rbrace]
  | some (PyVal.pdict (p :: ps)) =>
    match (p :: ps).lookup "value" with
    | some v => v.data
    | none => matched

/-- Left-to-right scan of `re.sub(r"\{\{(.+?)\}\}", replace_match, text)`:
at each position a match of the placeholder pattern is attempted; on a
match the replacement is emitted and scanning resumes after the match
(the replacement text is not rescanned). -/
def subPlaceholders (vars : List (String × PyVal)) : List Char → List Char
  | [] => []
  | [c] => [c]
  | c :: c2 :: rest =>
    if c = lbrace ∧ c2 = lbrace then
      match hsc : scanInner [] rest with
      | some (inner, tail) =>
        replaceMatch vars inner ++ subPlaceholders vars tail
      | none => c :: subPlaceholders vars (c2 :: rest)
    else c :: subPlaceholders vars (c2 :: rest)
termination_by l => l.length
decreasing_by
  · have := scanInner_length rest [] inner tail hsc
    simp [List.length]
    omega
  · simp [List.length]
  · simp [List.length]

/-- Shallow embedding of `ExecutorService._interpolate_variables`
(executor_service.py lines 414-425): with falsy text or an empty variable
map the text is returned unchanged; otherwise every placeholder match is
substituted. -/
def interpolateVariables (text : String) (vars : List (String × PyVal)) : String :=
  if text = "" ∨ vars = [] then text
  else String.mk (subPlaceholders vars text.data)

/-- Models the per-field interpolation of `start_run` (executor_service.py
lines 437-441): a field is interpolated only when it is truthy, and the
whole pass runs only when the variable map is truthy. -/
def applyInterpolation (vars : List (String × PyVal)) :
    Option String → Option String
  | none => none
  | some s => if s = "" then some s else some (interpolateVariables s vars)

/-- Models the persisted `WorkflowStep.target` field: the interpolated
step-definition field with the `.get(field, "")` default of `start_run`
(executor_service.py lines 452-462). -/
def persistedField (vars : List (String × PyVal)) (f : Option String) : String :=
  (applyInterpolation vars f).getD ""

/-! ## Support lemmas for the interpolation model -/

theorem dropWhile_ws_eq_self (l : List Char) (h : ∀ c ∈ l, c.isWhitespace = false) :
    l.dropWhile Char.isWhitespace = l := by
  cases l with
  | nil => rfl
  | cons c t =>
    rw [List.dropWhile_cons]
    simp [h c (by simp)]

theorem stripChars_eq_self (l : List Char) (h : ∀ c ∈ l, c.isWhitespace = false) :
    stripChars l = l := by
  unfold stripChars
  rw [dropWhile_ws_eq_self l h,
      dropWhile_ws_eq_self l.reverse (fun c hc => h c (List.mem_reverse.mp hc)),
      List.reverse_reverse]

theorem scanInner_clean :
    ∀ (name acc rest : List Char),
      (∀ c ∈ name, c ≠ rbrace ∧ c.isWhitespace = false) →
      acc.reverse ++ name ≠ [] →
      scanInner acc (name ++ rbrace :: rbrace :: rest) = some (acc.reverse ++ name, rest) := by
  intro name
  induction name with
  | nil =>
    intro acc rest _ hne
    have hacc : acc.isEmpty = false := by
      cases acc with
      | nil => simp at hne
      | cons a t => rfl
    simp only [List.nil_append, scanInner, if_pos rfl, hacc]
    simp
  | cons c name ih =>
    intro acc rest hclean hne
    have hc := hclean c (by simp)
    have hn : ¬ c = '\n' := by
      intro e
      have := hc.2
      rw [e] at this
      simp at this
    simp only [List.cons_append, scanInner, if_neg hc.1, if_neg hn]
    have hrec := ih (c :: acc) rest (fun d hd => hclean d (by simp [hd])) (by simp)
    simpa using hrec

theorem subPlaceholders_nil (vars : List (String × PyVal)) :
    subPlaceholders vars [] = [] := by
  simp [subPlaceholders]

theorem subPlaceholders_cons_ne (vars : List (String × PyVal)) {c : Char}
    (hc : c ≠ lbrace) (l : List Char) :
    subPlaceholders vars (c :: l) = c :: subPlaceholders vars l := by
  cases l with
  | nil => simp [subPlaceholders]
  | cons c2 t =>
    rw [subPlaceholders]
    rw [if_neg (fun hh => hc hh.1)]

theorem subPlaceholders_single_placeholder :
    ∀ (pre : List Char) (vars : List (String × PyVal)) (name post : List Char),
      (∀ c ∈ pre, c ≠ lbrace) →
      name ≠ [] →
      (∀ c ∈ name, c ≠ rbrace ∧ c.isWhitespace = false) →
      subPlaceholders vars (pre ++ lbrace :: lbrace :: (name ++ rbrace :: rbrace :: post))
        = pre ++ (replaceMatch vars name ++ subPlaceholders vars post) := by
  intro pre
  induction pre with
  | nil =>
    intro vars name post _ hne hclean
    have hscan := scanInner_clean name [] post hclean (by simpa using hne)
    simp only [List.nil_append]
    rw [subPlaceholders]
    rw [if_pos ⟨rfl, rfl⟩]
    split
    · rename_i inner tail heq
      rw [hscan] at heq
      obtain ⟨rfl, rfl⟩ : name = inner ∧ post = tail := by simpa using heq
      rfl
    · rename_i heq
      rw [hscan] at heq
      cases heq
  | cons c pre ih =>
    intro vars name post hpre hne hclean
    have hc : c ≠ lbrace := hpre c (by simp)
    simp only [List.cons_append]
    rw [subPlaceholders_cons_ne vars hc]
    rw [ih vars name post (fun d hd => hpre d (by simp [hd])) hne hclean]

/-! ## Theorems for claims C1, C4, C5, C6 -/

/-- C1 counterexample: the claim says the fallback interprets `N < M`
literally, so "5 < 10" should evaluate to true (5 < 10 holds); but with
previous data containing the key "content" the code compares
`int(numbers[0]) > int(numbers[1])` regardless of the operator and
returns false. -/
theorem c1_less_than_counterexample :
    evaluateCondition "5 < 10" ["content"] = false ∧ (5 < 10) := by
  exact ⟨by decide, by decide⟩

/-- C1 amended: when the previous data holds one of the trigger keys and
the condition contains a comparison sign with at least two integer
literals, the fallback returns `first literal > second literal`, ignoring
whether the operator was `<` or `>`; when the previous data holds none of
those keys the fallback returns true unless the condition mentions a
quality keyword (valid/exists/found/quality/success), in which case it
returns the truthiness of the previous data. -/
theorem c1_rule_fallback_amended :
    (∀ (cond : String) (keys : List String) (a b : String) (rest : List String),
        conditionDataKeys.any (fun k => keys.contains k) = true →
        (strContains cond "<" || strContains cond ">") = true →
        digitRuns cond = a :: b :: rest →
        evaluateCondition cond keys = decide (strToNat a > strToNat b))
  ∧ (∀ (cond : String) (keys : List String),
        conditionDataKeys.any (fun k => keys.contains k) = false →
        conditionQualityWords.any (fun w => strContains (strLower cond) w) = false →
        evaluateCondition cond keys = true)
  ∧ (∀ (cond : String) (keys : List String),
        conditionDataKeys.any (fun k => keys.contains k) = false →
        conditionQualityWords.any (fun w => strContains (strLower cond) w) = true →
        evaluateCondition cond keys = !keys.isEmpty) := by
  refine ⟨?_, ?_, ?_⟩
  · intro cond keys a b rest h1 h2 h3
    simp only [evaluateCondition]
    rw [if_pos h1, if_pos h2, h3]
  · intro cond keys h1 h2
    simp only [evaluateCondition]
    rw [if_neg (by rw [h1]; exact Bool.false_ne_true),
        if_neg (by rw [h2]; exact Bool.false_ne_true)]
  · intro cond keys h1 h2
    simp only [evaluateCondition]
    rw [if_neg (by rw [h1]; exact Bool.false_ne_true), if_pos h2]

/-- Witness for `c1_rule_fallback_amended` at concrete inputs. -/
theorem c1_rule_fallback_amended_witness :
    evaluateCondition "5 > 3" ["content"] = decide (strToNat "5" > strToNat "3")
  ∧ evaluateCondition "nothing here" ["foo"] = true
  ∧ evaluateCondition "is valid" ["foo"] = !(["foo"] : List String).isEmpty :=
  ⟨c1_rule_fallback_amended.1 "5 > 3" ["content"] "5" "3" [] (by decide) (by decide) (by decide),
   c1_rule_fallback_amended.2.1 "nothing here" ["foo"] (by decide) (by decide),
   c1_rule_fallback_amended.2.2 "is valid" ["foo"] (by decide) (by decide)⟩

/-- C4 counterexample: a decision resolved while no wait is outstanding is
buffered, but the next wait does not return it: the fresh event is never
set, the 300 s timeout fires, and "abort" is returned instead of the
buffered "retry". -/
theorem c4_buffered_decision_counterexample :
    (waitForResolution (some "retry") []).decision = "abort"
  ∧ (waitForResolution (some "retry") []).timedOut = true
  ∧ (waitForResolution (some "retry") []).decision ≠ "retry" := by
  exact ⟨rfl, rfl, by decide⟩

theorem foldl_resolveStep_last :
    ∀ (ds : List String) (pre : Option String) (d : String),
      ds.getLast? = some d → ds.foldl resolveStep pre = some d := by
  intro ds
  induction ds with
  | nil => intro pre d h; simp at h
  | cons a t ih =>
    intro pre d h
    cases t with
    | nil =>
      simp at h
      subst h
      rfl
    | cons b t2 =>
      have h2 : (b :: t2).getLast? = some d := by
        rw [List.getLast?_cons_cons] at h
        exact h
      simpa [List.foldl] using ih (resolveStep pre a) d h2

/-- C4 amended: a decision buffered before the wait starts is not observed
by that wait.  With no resolve during the wait, the wait runs to its
300-second timeout and returns abort, leaving the buffer in place; it
returns a non-timeout decision only when a resolve arrives during the
wait, and then it returns the most recently stored decision. -/
theorem c4_resolution_amended :
    (∀ pre, waitForResolution pre [] = ⟨"abort", true, pre⟩)
  ∧ (∀ (pre : Option String) (ds : List String) (d : String),
      ds.getLast? = some d →
      (waitForResolution pre ds).decision = d ∧ (waitForResolution pre ds).timedOut = false) := by
  refine ⟨fun pre => rfl, ?_⟩
  intro pre ds d h
  cases ds with
  | nil => simp at h
  | cons a t =>
    constructor
    · simp only [waitForResolution]
      rw [foldl_resolveStep_last (a :: t) pre d h]
      rfl
    · rfl

/-- Witness for `c4_resolution_amended` at concrete inputs. -/
theorem c4_resolution_amended_witness :
    (["skip"] : List String).getLast? = some "skip"
  ∧ (waitForResolution none ["skip"]).decision = "skip"
  ∧ (waitForResolution none ["skip"]).timedOut = false :=
  ⟨by decide,
   (c4_resolution_amended.2 none ["skip"] "skip" (by decide)).1,
   (c4_resolution_amended.2 none ["skip"] "skip" (by decide)).2⟩

theorem emitAll_eq_map {α : Type} :
    ∀ (es : List α) (queues : List (List α)),
      emitAll queues es = queues.map (fun q => q ++ es) := by
  intro es
  induction es with
  | nil => intro queues; simp [emitAll]
  | cons e es ih =>
    intro queues
    have : emitAll queues (e :: es) = emitAll (emitToQueues queues e) es := rfl
    rw [this, ih]
    simp [emitToQueues, qput, List.map_map, Function.comp]

/-- C5 counterexample: subscriber queues are NOT bounded — after
subscribing, emitting `B + 1` events yields a queue of length `B + 1`
for any claimed bound `B`, so no bound exists and nothing is ever
dropped. -/
theorem c5_unbounded_queue_counterexample :
    ¬ ∃ B : Nat, ∀ es : List Nat,
        ((emitAll (subscribeQueue ([] : List (List Nat))) es).headD []).length ≤ B := by
  rintro ⟨B, h⟩
  have h2 := h (List.replicate (B + 1) 0)
  rw [emitAll_eq_map] at h2
  simp [subscribeQueue] at h2

/-- C5 amended: `asyncio.Queue()` is created with default maxsize 0
(unbounded); `_emit` appends the event to every subscriber queue and never
drops anything, so after emitting `es` every queue `q` has become
`q ++ es` with all prior events retained in order. -/
theorem c5_event_bus_amended (α : Type) (queues : List (List α)) (es : List α) :
    emitAll queues es = queues.map (fun q => q ++ es) ∧ queueMaxsize = 0 :=
  ⟨emitAll_eq_map es queues, rfl⟩

/-- C6 counterexample: the variable map binds "x" (to a mapping without a
"value" entry), yet the persisted field still contains the `\x7b\x7bx\x7d\x7d`
placeholder, contradicting the claim that no persisted field contains a
placeholder of any bound name. -/
theorem c6_placeholder_kept_counterexample :
    persistedField [("x", PyVal.pdict [("secret", "true")])] (some "\x7b\x7bx\x7d\x7d")
      = "\x7b\x7bx\x7d\x7d"
  ∧ strContains "\x7b\x7bx\x7d\x7d" "\x7b\x7bx\x7d\x7d" = true := by
  constructor
  · have hx : ('x' : Char) ≠ rbrace ∧ ('x' : Char).isWhitespace = false := by decide
    have h := subPlaceholders_single_placeholder []
      [("x", PyVal.pdict [("secret", "true")])] ['x'] []
      (by intro c hc; simp at hc) (by decide)
      (by intro c hc; simp at hc; subst hc; exact hx)
    have hrm : replaceMatch [("x", PyVal.pdict [("secret", "true")])] ['x']
        = lbrace :: lbrace :: (['x'] ++ [rbrace, rbrace]) := by decide
    simp only [persistedField, applyInterpolation, interpolateVariables]
    rw [if_neg (by decide), if_neg (by decide)]
    simp only [Option.getD_some]
    apply String.ext
    show subPlaceholders [("x", PyVal.pdict [("secret", "true")])]
        ([] ++ lbrace :: lbrace :: (['x'] ++ rbrace :: rbrace :: [])) = _
    rw [h, hrm, subPlaceholders_nil]
    decide
  · decide

/-- Interpolation of a field holding exactly one clean placeholder after a
brace-free prefix: the prefix is kept, the match is handed to
`replaceMatch`, and scanning resumes after the closing braces. -/
theorem interpolate_single_placeholder
    (vars : List (String × PyVal)) (pre name post : List Char)
    (hvars : vars ≠ [])
    (hpre : ∀ c ∈ pre, c ≠ lbrace)
    (hname : name ≠ [])
    (hclean : ∀ c ∈ name, c ≠ rbrace ∧ c.isWhitespace = false) :
    (interpolateVariables
        (String.mk (pre ++ lbrace :: lbrace :: (name ++ rbrace :: rbrace :: post))) vars).data
      = pre ++ (replaceMatch vars name ++ subPlaceholders vars post) := by
  have hne : (pre ++ lbrace :: lbrace :: (name ++ rbrace :: rbrace :: post)) ≠ [] := by
    intro e
    have := congrArg List.length e
    simp at this
  have htext : String.mk (pre ++ lbrace :: lbrace :: (name ++ rbrace :: rbrace :: post)) ≠ "" := by
    intro e
    apply hne
    have := congrArg String.data e
    simpa using this
  simp only [interpolateVariables]
  rw [if_neg (by
    intro hor
    cases hor with
    | inl h => exact htext h
    | inr h => exact hvars h)]
  show subPlaceholders vars (pre ++ lbrace :: lbrace :: (name ++ rbrace :: rbrace :: post))
      = pre ++ (replaceMatch vars name ++ subPlaceholders vars post)
  rw [subPlaceholders_single_placeholder pre vars name post hpre hname hclean]

/-- C6 amended: a placeholder whose (whitespace-free) name is bound in the
variable map to a mapping is replaced by the mapping's "value" entry when
that entry exists; a placeholder whose name is absent from the map is left
unchanged.  Part 1: a field of the shape `pre{{name}}post` with brace-free
`pre` and `name` bound to a mapping carrying a "value" entry is persisted
with the placeholder replaced by exactly that entry.  Part 2: the same
field with `name` unbound keeps the placeholder verbatim. -/
theorem c6_interpolation_amended :
    (∀ (vars : List (String × PyVal)) (pre name post : List Char)
        (ps : List (String × String)) (v : String),
        vars ≠ [] →
        (∀ c ∈ pre, c ≠ lbrace) →
        name ≠ [] →
        (∀ c ∈ name, c ≠ rbrace ∧ c.isWhitespace = false) →
        vars.lookup (String.mk name) = some (PyVal.pdict ps) →
        ps.lookup "value" = some v →
        (interpolateVariables
            (String.mk (pre ++ lbrace :: lbrace :: (name ++ rbrace :: rbrace :: post))) vars).data
          = pre ++ (v.data ++ subPlaceholders vars post))
  ∧ (∀ (vars : List (String × PyVal)) (pre name post : List Char),
        vars ≠ [] →
        (∀ c ∈ pre, c ≠ lbrace) →
        name ≠ [] →
        (∀ c ∈ name, c ≠ rbrace ∧ c.isWhitespace = false) →
        vars.lookup (String.mk name) = none →
        (interpolateVariables
            (String.mk (pre ++ lbrace :: lbrace :: (name ++ rbrace :: rbrace :: post))) vars).data
          = pre ++ ((lbrace :: lbrace :: (name ++ [rbrace, rbrace]))
              ++ subPlaceholders vars post)) := by
  constructor
  · intro vars pre name post ps v hvars hpre hname hclean hlk hv
    rw [interpolate_single_placeholder vars pre name post hvars hpre hname hclean]
    have hstrip : stripChars name = name :=
      stripChars_eq_self name (fun c hc => (hclean c hc).2)
    obtain ⟨p, ps2, rfl⟩ : ∃ p ps2, ps = p :: ps2 := by
      cases ps with
      | nil => simp at hv
      | cons p ps2 => exact ⟨p, ps2, rfl⟩
    have hrm : replaceMatch vars name = v.data := by
      simp only [replaceMatch, hstrip, hlk, hv]
    rw [hrm]
  · intro vars pre name post hvars hpre hname hclean hlk
    rw [interpolate_single_placeholder vars pre name post hvars hpre hname hclean]
    have hstrip : stripChars name = name :=
      stripChars_eq_self name (fun c hc => (hclean c hc).2)
    have hrm : replaceMatch vars name = lbrace :: lbrace :: (name ++ [rbrace, rbrace]) := by
      simp only [replaceMatch, hstrip, hlk]
    rw [hrm]

/-- Witness for `c6_interpolation_amended` at concrete inputs: "x" bound
with a value entry is substituted; "y" unbound stays a placeholder. -/
theorem c6_interpolation_amended_witness :
    (interpolateVariables (String.mk (['a', ' '] ++ lbrace :: lbrace :: (['x'] ++ rbrace :: rbrace :: ['b'])))
        [("x", PyVal.pdict [("value", "42")])]).data
      = ['a', ' '] ++ (("42" : String).data ++ subPlaceholders [("x", PyVal.pdict [("value", "42")])] ['b'])
  ∧ (interpolateVariables (String.mk (['a'] ++ lbrace :: lbrace :: (['y'] ++ rbrace :: rbrace :: [])))
        [("x", PyVal.pdict [("value", "42")])]).data
      = ['a'] ++ ((lbrace :: lbrace :: (['y'] ++ [rbrace, rbrace]))
          ++ subPlaceholders [("x", PyVal.pdict [("value", "42")])] []) := by
  constructor
  · exact c6_interpolation_amended.1 [("x", PyVal.pdict [("value", "42")])] ['a', ' '] ['x'] ['b']
      [("value", "42")] "42"
      (by decide)
      (by intro c hc; simp at hc; rcases hc with rfl | rfl <;> decide)
      (by decide)
      (by intro c hc; simp at hc; subst hc; exact ⟨by decide, by decide⟩)
      (by decide)
      (by decide)
  · exact c6_interpolation_amended.2 [("x", PyVal.pdict [("value", "42")])] ['a'] ['y'] []
      (by decide)
      (by intro c hc; simp at hc; subst hc; decide)
      (by decide)
      (by intro c hc; simp at hc; subst hc; exact ⟨by decide, by decide⟩)
      (by decide)

/-! ## C7: CAPTCHA fallback (browser_service.py 626-731) -/

/-- Bot-block fingerprint on the (already truncated) page body text, as
tested by `is_blocked` (browser_service.py lines 638-655). -/
def isBlockedText (text : String) : Bool :=
  let lower := strLower text
  strContains lower "unusual traffic" ||
  strContains lower "are not a robot" ||
  strContains lower "i\x27m not a robot" ||
  strContains lower "captcha" ||
  (strContains lower "blocked" && strContains lower "your request") ||
  strContains lower "sorry, you have been blocked" ||
  (strContains lower "please verify" && strContains lower "human") ||
  strContains lower "recaptcha"

/-- Drops everything through the first occurrence of `sub`; `none` when
`sub` does not occur.  Used to model the scheme split of `urlparse`. -/
def dropAfterSub (sub : List Char) : List Char → Option (List Char)
  | [] => if sub.isPrefixOf ([] : List Char) then some [] else none
  | c :: t =>
    if sub.isPrefixOf (c :: t) then some ((c :: t).drop sub.length)
    else dropAfterSub sub t

/-- The netloc of a URL: the text between "://" and the first of `/`, `?`
or `#`; models `urlparse(...).netloc` for URLs carrying a scheme. -/
def netlocOf (url : String) : List Char :=
  match dropAfterSub "://".data url.data with
  | some rest => rest.takeWhile (fun c => c ≠ '/' ∧ c ≠ '?' ∧ c ≠ '#')
  | none => []

/-- Hostname: the netloc after the last `@` and before the first `:`,
lowercased; models `urlparse(...).hostname` (with `or ""` when absent). -/
def hostnameOf (url : String) : String :=
  String.mk ((((netlocOf url).reverse.takeWhile (fun c => c ≠ '@')).reverse.takeWhile
    (fun c => c ≠ ':')).map charLower)

/-- Query string: the part after the first `?` and before the first `#`;
models `urlparse(...).query`. -/
def queryOf (url : String) : List Char :=
  let beforeFrag := url.data.takeWhile (fun c => c ≠ '#')
  (beforeFrag.dropWhile (fun c => c ≠ '?')).drop 1

/-- Uppercase hex digit of a value below 16. -/
def hexUpper (n : Nat) : Char :=
  if n < 10 then Char.ofNat (48 + n) else Char.ofNat (55 + n)

/-- Percent-encoding of one byte. -/
def pctEncodeByte (b : UInt8) : List Char :=
  ['%', hexUpper (b.toNat / 16), hexUpper (b.toNat % 16)]

/-- `urllib.parse.quote_plus` on one character: ASCII alphanumerics and
`_ . - ~` are kept, a space becomes `+`, anything else is percent-encoded
from its UTF-8 bytes. -/
def quotePlusChar (c : Char) : List Char :=
  if c.isAlphanum || c = '_' || c = '.' || c = '-' || c = '~' then [c]
  else if c = ' ' then ['+']
  else ((String.singleton c).toUTF8.toList.map pctEncodeByte).flatten

/-- `quote_plus` on a string.  `urlencode({'': q})[1:]`, as used by
`get_fallback_url`, equals `quote_plus q`. -/
def quotePlus (s : String) : String := String.mk ((s.data.map quotePlusChar).flatten)

/-- Value of a hex digit character. -/
def hexVal (c : Char) : Option Nat :=
  if 48 ≤ c.toNat ∧ c.toNat ≤ 57 then some (c.toNat - 48)
  else if 97 ≤ c.toNat ∧ c.toNat ≤ 102 then some (c.toNat - 87)
  else if 65 ≤ c.toNat ∧ c.toNat ≤ 70 then some (c.toNat - 55)
  else none

/-- `urllib.parse.unquote_plus` restricted to single-byte escapes: `+`
becomes a space and `%XX` the character of that byte (multi-byte UTF-8
sequences are outside the ASCII queries the claims touch). -/
def unquotePlus : List Char → List Char
  | [] => []
  | '+' :: r => ' ' :: unquotePlus r
  | '%' :: h1 :: h2 :: r =>
    (match hexVal h1, hexVal h2 with
     | some a, some b => Char.ofNat (16 * a + b) :: unquotePlus r
     | _, _ => '%' :: unquotePlus (h1 :: h2 :: r))
  | c :: r => c :: unquotePlus r

/-- Splits a character list at a separator character; models the
`query.split('&')` step of `parse_qs`. -/
def splitOnCharAux (sep : Char) (cur : List Char) : List Char → List (List Char)
  | [] => [cur.reverse]
  | c :: t =>
    if c = sep then cur.reverse :: splitOnCharAux sep [] t
    else splitOnCharAux sep (c :: cur) t

/-- First value bound to `key` in a query string, decoded; models
`parse_qs(query).get(key, [""])[0]`: pairs with an empty (or missing)
value are skipped, names and values are unquoted. -/
def parseQsGet (query : List Char) (key : String) : Option String :=
  (splitOnCharAux '&' [] query).foldl
    (fun res p =>
      match res with
      | some v => some v
      | none =>
        let name := String.mk (unquotePlus (p.takeWhile (fun c => c ≠ '=')))
        let value := (p.dropWhile (fun c => c ≠ '=')).drop 1
        if value = [] then none
        else if name = key then some (String.mk (unquotePlus value)) else none)
    none

/-- Fuel-driven worker for `removeSub` (the list shrinks by at least one
per step, so fuel equal to the list length is enough). -/
def removeSubAux (sub : List Char) : Nat → List Char → List Char
  | 0, l => l
  | _ + 1, [] => []
  | fuel + 1, c :: t =>
    if sub ≠ [] ∧ sub.isPrefixOf (c :: t) then
      removeSubAux sub fuel ((c :: t).drop sub.length)
    else c :: removeSubAux sub fuel t

/-- Removes every occurrence of `sub`, left to right, non-overlapping;
models Python `str.replace(sub, "")`. -/
def removeSub (sub l : List Char) : List Char := removeSubAux sub l.length l

/-- Shallow embedding of `browser_service.get_fallback_url` (lines
658-676): when the hostname with "www." removed starts with "google.",
build a DuckDuckGo URL carrying the quoted value of the search parameter
`q` (plain DuckDuckGo when there is no query); otherwise `none`. -/
def getFallbackUrl (url : String) : Option String :=
  if url = "" then none
  else
    let domain := removeSub "www.".data (hostnameOf url).data
    if "google.".data.isPrefixOf domain then
      match parseQsGet (queryOf url) "q" with
      | some q =>
        if q = "" then some "https://duckduckgo.com"
        else some ("https://duckduckgo.com/?q=" ++ quotePlus q)
      | none => some "https://duckduckgo.com"
    else none

/-- What one page load returns; `fetch` abstracts `page.goto` together
with the body-text probe of `is_blocked` (redirects are not modelled, so
`page.url` after a goto is the URL navigated to). -/
structure FetchResult where
  status : Nat
  title : String
  bodyText : String

/-- Result record of `navigate_with_fallback`: url, status_code,
page_title and the fallback metadata (the wall-clock `load_time_ms` and
the constant `dom_ready`/`live` fields are not modelled). -/
structure NavResult where
  url : String
  statusCode : Nat
  pageTitle : String
  fallback : Bool
  originalUrl : Option String
  fallbackReason : Option String
deriving DecidableEq, Repr

/-- Models Python `str.startswith` (a kernel-reducible version of
`String.startsWith`). -/
def strStartsWith (s p : String) : Bool := p.data.isPrefixOf s.data

/-- Models the scheme completion at the top of `navigate_with_fallback`
(browser_service.py lines 687-689). -/
def ensureScheme (url : String) : String :=
  if strStartsWith url "http://" || strStartsWith url "https://" then url
  else "https://" ++ url

/-- Shallow embedding of `browser_service.navigate_with_fallback`
(lines 679-731): ensure a scheme, load the page, and when the body text
matches the bot-block fingerprint and a fallback URL exists, re-navigate
there and flag the result with `fallback` and the original URL. -/
def navigateWithFallback (fetch : String → FetchResult) (url0 : String) : NavResult :=
  if isBlockedText (fetch (ensureScheme url0)).bodyText then
    match getFallbackUrl (ensureScheme url0) with
    | some fb =>
      ⟨fb, (fetch fb).status, (fetch fb).title, true, some (ensureScheme url0),
       some "Bot detection bypassed via DuckDuckGo"⟩
    | none =>
      ⟨ensureScheme url0, (fetch (ensureScheme url0)).status,
       (fetch (ensureScheme url0)).title, false, none, none⟩
  else
    ⟨ensureScheme url0, (fetch (ensureScheme url0)).status,
     (fetch (ensureScheme url0)).title, false, none, none⟩

theorem quotePlusChars_alnum :
    ∀ l : List Char, (∀ c ∈ l, c.isAlphanum = true) → (l.map quotePlusChar).flatten = l := by
  intro l
  induction l with
  | nil => intro _; rfl
  | cons c t ih =>
    intro h
    have hc : quotePlusChar c = [c] := by
      unfold quotePlusChar
      rw [if_pos (by rw [h c (by simp)]; rfl)]
    simp only [List.map_cons, List.flatten_cons, hc]
    rw [ih (fun d hd => h d (by simp [hd]))]
    rfl

theorem quotePlus_alnum (s : String) (h : ∀ c ∈ s.data, c.isAlphanum = true) :
    quotePlus s = s := by
  have : (s.data.map quotePlusChar).flatten = s.data := quotePlusChars_alnum s.data h
  unfold quotePlus
  apply String.ext
  simpa using this

/-- C7: when a navigation lands on a bot-blocked page and the original
URL is a Google (search) host carrying an ASCII query parameter `q`, the
engine re-navigates to the DuckDuckGo URL carrying the same `q`, flags
the result with `fallback = true` and preserves the originally requested
URL; when the page is not blocked no fallback occurs and the result
carries no fallback metadata. -/
theorem c7_captcha_fallback :
    (∀ (fetch : String → FetchResult) (url q : String),
      (strStartsWith url "http://" || strStartsWith url "https://") = true →
      "google.".data.isPrefixOf (removeSub "www.".data (hostnameOf url).data) = true →
      parseQsGet (queryOf url) "q" = some q →
      q ≠ "" →
      (∀ c ∈ q.data, c.isAlphanum = true) →
      isBlockedText (fetch url).bodyText = true →
      (navigateWithFallback fetch url).fallback = true ∧
      (navigateWithFallback fetch url).originalUrl = some url ∧
      (navigateWithFallback fetch url).url = "https://duckduckgo.com/?q=" ++ q)
  ∧ (∀ (fetch : String → FetchResult) (url : String),
      isBlockedText (fetch (ensureScheme url)).bodyText = false →
      (navigateWithFallback fetch url).fallback = false ∧
      (navigateWithFallback fetch url).originalUrl = none) := by
  constructor
  · intro fetch url q hstart hdom hq hqne halnum hblocked
    have hes : ensureScheme url = url := by
      unfold ensureScheme
      rw [if_pos hstart]
    have hne : ¬ url = "" := by
      intro e
      subst e
      revert hstart
      decide
    have hfb : getFallbackUrl url = some ("https://duckduckgo.com/?q=" ++ quotePlus q) := by
      simp only [getFallbackUrl]
      rw [if_neg hne, if_pos hdom, hq]
      show (if q = "" then some "https://duckduckgo.com"
            else some ("https://duckduckgo.com/?q=" ++ quotePlus q))
          = some ("https://duckduckgo.com/?q=" ++ quotePlus q)
      rw [if_neg hqne]
    unfold navigateWithFallback
    rw [hes, if_pos hblocked, hfb]
    refine ⟨rfl, rfl, ?_⟩
    show "https://duckduckgo.com/?q=" ++ quotePlus q = "https://duckduckgo.com/?q=" ++ q
    rw [quotePlus_alnum q halnum]
  · intro fetch url hnb
    unfold navigateWithFallback
    rw [if_neg (by rw [hnb]; exact Bool.false_ne_true)]
    exact ⟨rfl, rfl⟩

/-- Witness for `c7_captcha_fallback` at concrete inputs: a blocked
Google search for "foo" falls back to DuckDuckGo, and an unblocked page
carries no fallback metadata. -/
theorem c7_captcha_fallback_witness :
    (navigateWithFallback (fun _ => ⟨200, "Sorry", "Our systems have detected unusual traffic"⟩)
        "https://www.google.com/search?q=foo").fallback = true
  ∧ (navigateWithFallback (fun _ => ⟨200, "Sorry", "Our systems have detected unusual traffic"⟩)
        "https://www.google.com/search?q=foo").originalUrl = some "https://www.google.com/search?q=foo"
  ∧ (navigateWithFallback (fun _ => ⟨200, "Sorry", "Our systems have detected unusual traffic"⟩)
        "https://www.google.com/search?q=foo").url = "https://duckduckgo.com/?q=" ++ "foo"
  ∧ (navigateWithFallback (fun _ => ⟨200, "Example", "welcome"⟩)
        "https://example.com").fallback = false
  ∧ (navigateWithFallback (fun _ => ⟨200, "Example", "welcome"⟩)
        "https://example.com").originalUrl = none := by
  have h1 := c7_captcha_fallback.1
    (fun _ => ⟨200, "Sorry", "Our systems have detected unusual traffic"⟩)
    "https://www.google.com/search?q=foo" "foo"
    (by decide) (by decide) (by decide) (by decide) (by decide) (by decide)
  have h2 := c7_captcha_fallback.2
    (fun _ => ⟨200, "Example", "welcome"⟩) "https://example.com" (by decide)
  exact ⟨h1.1, h1.2.1, h1.2.2, h2.1, h2.2⟩

/-! ## Run engine: ExecutorService._execute_run / _execute_step /
_try_self_heal (executor_service.py 468-607, 609-678, 1078-1127)

The loop is embedded as an executable fold over the run's steps.  The
outcome of each `_execute_step` attempt (browser / Nova / simulation and
the self-heal fix parse) is abstracted into a per-step oracle; the
database is modelled by the statuses and counters the loop commits, with
one `Snap` recorded per `await db.commit()`; events are the dicts passed
to `_emit`, tagged by the step's id (its index in the run). -/

/-- The slice of a step's parsed `result_data` that the loop reads back
(executor_service.py lines 529-535): the `branch_taken` and
`evaluated_to` entries of the JSON object, when present. -/
structure RJson where
  branchTaken : Option String
  evaluatedTo : Option Bool
deriving DecidableEq, Repr

/-- Outcome of one `_execute_step` call: success with the result that is
persisted as `result_data`, or a raised `StepFailedError`. -/
inductive ExecOutcome where
  | ok (res : RJson)
  | err (msg : String)
deriving DecidableEq, Repr

/-- Decision returned by `_wait_for_resolution`; the HTTP surface only
ever stores "retry", "skip" or "abort", and a timeout yields "abort". -/
inductive Resolution where
  | retry
  | skip
  | abort
deriving DecidableEq, Repr

/-- Per-step oracle abstracting the effectful parts of one loop
iteration: the first `_execute_step` outcome; whether `_try_self_heal`
obtains a parsed fix from Nova (`healAvail`); the outcome of the heal
re-execution; the resolution decision the broker would deliver; and the
outcome of a retry re-execution. -/
structure StepOracle where
  first : ExecOutcome
  healAvail : Bool
  healExec : ExecOutcome
  resolution : Resolution
  retryExec : ExecOutcome
deriving DecidableEq, Repr

/-- A persisted step record as far as the loop reads it (the id is the
step's index in the run). -/
structure StepRec where
  stepNumber : Nat
  action : String
  target : String
  value : Option String
  description : String
  condition : Option String
deriving DecidableEq, Repr

/-- Events passed to `_emit`, keyed by the step id where one exists. -/
inductive Event where
  | runStarted (total : Nat)
  | stepStarted (id : Nat)
  | stepCompleted (id : Nat)
  | stepFailed (id : Nat)
  | stepSkipped (id : Nat) (reason : Option String)
  | stepHealed (id : Nat)
  | runCompleted
  | runFailed
deriving DecidableEq, Repr

/-- The step id carried by an event, if any. -/
def Event.idOf : Event → Option Nat
  | .runStarted _ => none
  | .stepStarted i => some i
  | .stepCompleted i => some i
  | .stepFailed i => some i
  | .stepSkipped i _ => some i
  | .stepHealed i => some i
  | .runCompleted => none
  | .runFailed => none

/-- The events of one step, in order. -/
def filterById (i : Nat) (es : List Event) : List Event :=
  es.filter (fun e => e.idOf == some i)

/-- How the loop disposed of a step: executed (reached the
`_execute_step` path), skipped by the pending `skip_next` flag, or never
reached because the run aborted earlier. -/
inductive Disp where
  | executed
  | flagSkipped
  | notReached
deriving DecidableEq, Repr

/-- One `await db.commit()`: the value of `run.completed_steps`, the
statuses of all step rows at that moment, and whether this is the
step-completion commit inside `_execute_step` (line 667). -/
structure Snap where
  cs : Nat
  statuses : List String
  isCompletion : Bool
deriving DecidableEq, Repr

/-- Number of steps whose status is `completed` or `skipped`. -/
def countPos (l : List String) : Nat :=
  l.countP (fun s => s == "completed" || s == "skipped")

/-- The `skip_next` test of the loop (executor_service.py line 532):
`branch_taken == "skip_next" or not evaluated_to (default True)`. -/
def skipSignal (res : RJson) : Bool :=
  (res.branchTaken == some "skip_next") || !(res.evaluatedTo.getD true)

/-- Snapshot constructor: previous steps keep their final statuses, the
current row carries `cur`, later rows are still `pending`. -/
def mkSnap (pre : List String) (nrest : Nat) (cur : String) (c : Nat) (b : Bool) : Snap :=
  ⟨c, pre ++ [cur] ++ List.replicate nrest "pending", b⟩

/-- Result of processing one (non-flag-skipped) step. -/
structure StepOut where
  newCs : Nat
  finalStatus : String
  events : List Event
  snaps : List Snap
  requested : Bool
  newSkip : Bool
  aborted : Bool
deriving Repr

/-- The failure continuation of one loop iteration, from
`_wait_for_resolution` on (executor_service.py lines 560-591).  `cur` is
the step status in the database when the wait starts ("failed" when no
heal was attempted, "running" when a heal attempt itself raised inside
`_execute_step`); `evs`/`sns` are the events and commits accumulated so
far in this iteration.  abort: the run fails with the step left as is;
skip: the step becomes `skipped` and counts; retry: the step re-executes
once, a second failure failing the run with the step left `running`. -/
def resolutionPhase (idx : Nat) (o : StepOracle) (cs : Nat) (pre : List String)
    (nrest : Nat) (cur : String) (evs : List Event) (sns : List Snap) : StepOut :=
  match o.resolution with
  | .abort =>
    { newCs := cs, finalStatus := cur,
      events := evs ++ [.runFailed],
      snaps := sns ++ [mkSnap pre nrest cur cs false],
      requested := true, newSkip := false, aborted := true }
  | .skip =>
    { newCs := cs + 1, finalStatus := "skipped",
      events := evs ++ [.stepSkipped idx none],
      snaps := sns ++ [mkSnap pre nrest "skipped" (cs + 1) false],
      requested := true, newSkip := false, aborted := false }
  | .retry =>
    match o.retryExec with
    | .ok _ =>
      { newCs := cs + 1, finalStatus := "completed",
        events := evs ++ [.stepStarted idx, .stepCompleted idx],
        snaps := sns ++ [mkSnap pre nrest "pending" cs false,
                         mkSnap pre nrest "running" cs false,
                         mkSnap pre nrest "completed" cs true,
                         mkSnap pre nrest "completed" (cs + 1) false],
        requested := true, newSkip := false, aborted := false }
    | .err _ =>
      { newCs := cs, finalStatus := "running",
        events := evs ++ [.stepStarted idx, .runFailed],
        snaps := sns ++ [mkSnap pre nrest "pending" cs false,
                         mkSnap pre nrest "running" cs false,
                         mkSnap pre nrest "running" cs false],
        requested := true, newSkip := false, aborted := true }

/-- One loop iteration for a step that is not flag-skipped
(executor_service.py lines 525-591 together with `_execute_step` and
`_try_self_heal`).  On success: the step runs (running commit, then the
completion commit and `step_completed` event inside `_execute_step`),
the `skip_next` flag is derived from a conditional's own result, and the
counter increment commits.  On failure: failed commit and `step_failed`
event; a parsed heal fix resets the step to pending and re-executes it —
on success `step_healed` is emitted after `step_completed` and the
counter increments; otherwise the loop blocks on a resolution. -/
def procStep (idx : Nat) (action : String) (o : StepOracle) (cs : Nat)
    (pre : List String) (nrest : Nat) : StepOut :=
  match o.first with
  | .ok res =>
    { newCs := cs + 1, finalStatus := "completed",
      events := [.stepStarted idx, .stepCompleted idx],
      snaps := [mkSnap pre nrest "running" cs false,
                mkSnap pre nrest "completed" cs true,
                mkSnap pre nrest "completed" (cs + 1) false],
      requested := false,
      newSkip := action == "conditional" && skipSignal res,
      aborted := false }
  | .err _ =>
    if o.healAvail then
      match o.healExec with
      | .ok _ =>
        { newCs := cs + 1, finalStatus := "completed",
          events := [.stepStarted idx, .stepFailed idx, .stepStarted idx,
                     .stepCompleted idx, .stepHealed idx],
          snaps := [mkSnap pre nrest "running" cs false,
                    mkSnap pre nrest "failed" cs false,
                    mkSnap pre nrest "pending" cs false,
                    mkSnap pre nrest "running" cs false,
                    mkSnap pre nrest "completed" cs true,
                    mkSnap pre nrest "completed" (cs + 1) false],
          requested := false, newSkip := false, aborted := false }
      | .err _ =>
        resolutionPhase idx o cs pre nrest "running"
          [.stepStarted idx, .stepFailed idx, .stepStarted idx]
          [mkSnap pre nrest "running" cs false,
           mkSnap pre nrest "failed" cs false,
           mkSnap pre nrest "pending" cs false,
           mkSnap pre nrest "running" cs false]
    else
      resolutionPhase idx o cs pre nrest "failed"
        [.stepStarted idx, .stepFailed idx]
        [mkSnap pre nrest "running" cs false,
         mkSnap pre nrest "failed" cs false]

/-- Accumulated run state while the loop walks the steps. -/
structure EngAcc where
  cs : Nat
  statuses : List String
  events : List Event
  snaps : List Snap
  reqs : List Nat
  disps : List Disp
deriving Repr

/-- The per-step loop of `_execute_run` (executor_service.py lines
507-591): a pending `skip_next` flag marks the step skipped (counting it
and emitting `step_skipped` with reason `conditional_branch_false`);
otherwise the step is processed by `procStep`; an aborted iteration ends
the run with all later steps still `pending`. -/
def execLoop : Bool → Nat → EngAcc → List (StepRec × StepOracle) → EngAcc × Bool
  | _, _, acc, [] => (acc, false)
  | skipFlag, idx, acc, (s, o) :: rest =>
    if skipFlag then
      let acc' : EngAcc :=
        { cs := acc.cs + 1,
          statuses := acc.statuses ++ ["skipped"],
          events := acc.events ++ [.stepSkipped idx (some "conditional_branch_false")],
          snaps := acc.snaps ++
            [⟨acc.cs + 1, acc.statuses ++ ["skipped"] ++ List.replicate rest.length "pending",
              false⟩],
          reqs := acc.reqs,
          disps := acc.disps ++ [.flagSkipped] }
      execLoop false (idx + 1) acc' rest
    else
      let r := procStep idx s.action o acc.cs acc.statuses rest.length
      let acc' : EngAcc :=
        { cs := r.newCs,
          statuses := acc.statuses ++ [r.finalStatus],
          events := acc.events ++ r.events,
          snaps := acc.snaps ++ r.snaps,
          reqs := acc.reqs ++ (if r.requested then [idx] else []),
          disps := acc.disps ++ [.executed] }
      if r.aborted then
        ({ acc' with
            statuses := acc'.statuses ++ List.replicate rest.length "pending",
            disps := acc'.disps ++ List.replicate rest.length .notReached }, true)
      else execLoop r.newSkip (idx + 1) acc' rest

/-- The observable outcome of one run. -/
structure RunOutcome where
  runStatus : String
  completedSteps : Nat
  totalSteps : Nat
  statuses : List String
  events : List Event
  snaps : List Snap
  reqs : List Nat
  disps : List Disp
deriving Repr

/-- Final transition of `_execute_run`: an aborted loop already committed
the `failed` run status and emitted `run_failed`; otherwise the run is
marked `completed` (one more commit) and `run_completed` is emitted
(executor_service.py lines 560-596). -/
def finishRun (n : Nat) : EngAcc × Bool → RunOutcome
  | (acc, true) =>
    { runStatus := "failed", completedSteps := acc.cs, totalSteps := n,
      statuses := acc.statuses, events := acc.events, snaps := acc.snaps,
      reqs := acc.reqs, disps := acc.disps }
  | (acc, false) =>
    { runStatus := "completed", completedSteps := acc.cs, totalSteps := n,
      statuses := acc.statuses,
      events := acc.events ++ [.runCompleted],
      snaps := acc.snaps ++ [⟨acc.cs, acc.statuses, false⟩],
      reqs := acc.reqs, disps := acc.disps }

/-- The initial accumulator: the run is marked `running` (first commit,
all step rows `pending`) and `run_started` is emitted
(executor_service.py lines 489-498). -/
def initAcc (n : Nat) : EngAcc :=
  { cs := 0, statuses := [],
    events := [.runStarted n],
    snaps := [⟨0, List.replicate n "pending", false⟩],
    reqs := [], disps := [] }

/-- Shallow embedding of `ExecutorService._execute_run`
(executor_service.py lines 468-607): mark the run `running`, emit
`run_started`, walk the steps, and finish. -/
def executeRun (steps : List StepRec) (oracles : List StepOracle) : RunOutcome :=
  finishRun steps.length
    (execLoop false 0 (initAcc steps.length) (steps.zip oracles))

/-! ## Simulation backend for conditionals (executor_service.py 1063-1070) -/

/-- Python `a or b` on an optional string against a fallback. -/
def pyOr (a : Option String) (b : String) : String :=
  match a with
  | some s => if s = "" then b else s
  | none => b

/-- The conditional branch of `_simulate_step` (executor_service.py lines
1063-1070): the expression echoes `condition or target or "true"`, and
the result is always `evaluated_to = true`, `branch_taken = "continue"`,
`simulated = true`. -/
structure SimCondResult where
  expression : String
  evaluatedTo : Bool
  branchTaken : String
  simulated : Bool
deriving DecidableEq, Repr

/-- Deterministic simulation of a conditional step. -/
def simulateConditional (condition : Option String) (target : String) : SimCondResult :=
  { expression := pyOr condition (pyOr (some target) "true"),
    evaluatedTo := true,
    branchTaken := "continue",
    simulated := true }

/-- The slice of a simulated conditional result that the loop reads back
after the JSON round trip. -/
def SimCondResult.toRJson (r : SimCondResult) : RJson :=
  ⟨some r.branchTaken, some r.evaluatedTo⟩

/-- Number of steps whose status is terminal in the sense of the data
model: `completed`, `failed` or `skipped`. -/
def countTerminal (l : List String) : Nat :=
  l.countP (fun s => s == "completed" || s == "failed" || s == "skipped")

/-! ## Concrete fixtures used by counterexamples and witnesses -/

/-- A click step record. -/
def clickStep : StepRec := ⟨1, "click", "button", none, "click the button", none⟩

/-- Oracle of a step that succeeds at once. -/
def okOracle : StepOracle :=
  ⟨.ok ⟨none, none⟩, false, .ok ⟨none, none⟩, .abort, .ok ⟨none, none⟩⟩

/-- Oracle of a step that fails, cannot be healed, and is aborted. -/
def failAbortOracle : StepOracle :=
  ⟨.err "ElementNotFound", false, .ok ⟨none, none⟩, .abort, .ok ⟨none, none⟩⟩

/-- Oracle of a step that fails and is then successfully self-healed. -/
def healOkOracle : StepOracle :=
  ⟨.err "ElementNotFound", true, .ok ⟨none, none⟩, .abort, .ok ⟨none, none⟩⟩

/-! ## Theorems for claims C2, C3, C8, C9, C10 -/

/-- C2 counterexample: a two-step run whose first step fails with an
abort resolution reaches the terminal run status "failed" while its
second step is still `pending` (not terminal): the count of terminal
steps is 1, not `total_steps = 2`. -/
theorem c2_terminal_steps_counterexample :
    (executeRun [clickStep, clickStep] [failAbortOracle, okOracle]).runStatus = "failed"
  ∧ (executeRun [clickStep, clickStep] [failAbortOracle, okOracle]).statuses
      = ["failed", "pending"]
  ∧ countTerminal (executeRun [clickStep, clickStep] [failAbortOracle, okOracle]).statuses = 1
  ∧ (executeRun [clickStep, clickStep] [failAbortOracle, okOracle]).totalSteps = 2
  ∧ (1 : Nat) ≠ 2 := by
  exact ⟨by decide, by decide, by decide, by decide, by decide⟩

/-- C3 counterexample: in a healed run the full event stream is
`run_started, step_started, step_failed, step_started, step_completed,
step_healed, run_completed` — the unique `step_healed` (index 5) comes
AFTER the unique `step_completed` (index 4), so the stream never contains
`step_failed`, then `step_healed`, then `step_completed` in that order. -/
theorem c3_heal_order_counterexample :
    (executeRun [clickStep] [healOkOracle]).events
      = [.runStarted 1, .stepStarted 0, .stepFailed 0, .stepStarted 0,
         .stepCompleted 0, .stepHealed 0, .runCompleted]
  ∧ (executeRun [clickStep] [healOkOracle]).events.indexOf (.stepHealed 0) = 5
  ∧ (executeRun [clickStep] [healOkOracle]).events.count (.stepHealed 0) = 1
  ∧ (executeRun [clickStep] [healOkOracle]).events.indexOf (.stepCompleted 0) = 4
  ∧ (executeRun [clickStep] [healOkOracle]).events.count (.stepCompleted 0) = 1
  ∧ ¬ (5 : Nat) < 4 := by
  exact ⟨by decide, by decide, by decide, by decide, by decide, by decide⟩

/-- C8 counterexample: the step-completion commit inside `_execute_step`
(line 667) happens before the loop increments `run.completed_steps`, so
at that commit the run of a single successful step has
`completed_steps = 0` while one step is already `completed`. -/
theorem c8_commit_counter_counterexample :
    (executeRun [clickStep] [okOracle]).snaps.get? 2 = some ⟨0, ["completed"], true⟩
  ∧ countPos ["completed"] = 1
  ∧ (0 : Nat) ≠ 1 := by
  exact ⟨by decide, by decide, by decide⟩

/-! ## Counting lemmas -/

theorem countP_pending_replicate (n : Nat) :
    (List.replicate n "pending").countP (fun s => s == "completed" || s == "skipped") = 0 := by
  induction n with
  | zero => rfl
  | succ k ih =>
    rw [List.replicate_succ, List.countP_cons]
    simp [ih]

/-- A step ends `completed` or `skipped` in every non-aborting branch of
one loop iteration. -/
theorem procStep_final_of_not_aborted (idx : Nat) (a : String) (o : StepOracle)
    (cs : Nat) (pre : List String) (n : Nat) :
    (procStep idx a o cs pre n).aborted = false →
    (procStep idx a o cs pre n).finalStatus = "completed" ∨
    (procStep idx a o cs pre n).finalStatus = "skipped" := by
  obtain ⟨f, ha, he, r, rx⟩ := o
  cases f <;> cases ha <;> cases he <;> cases r <;> cases rx <;>
    simp [procStep, resolutionPhase]

/-- Per-iteration commit invariant: given that before the step the
counter matches the number of completed/skipped rows, every commit of the
iteration matches too, except the step-completion commit which runs one
ahead; and the counter matches again once the iteration's final status is
recorded. -/
theorem procStep_snaps_ok (idx : Nat) (a : String) (o : StepOracle) (cs : Nat)
    (pre : List String) (n : Nat) (hpre : countPos pre = cs) :
    (∀ sn ∈ (procStep idx a o cs pre n).snaps,
        countPos sn.statuses = sn.cs + (if sn.isCompletion then 1 else 0))
    ∧ countPos (pre ++ [(procStep idx a o cs pre n).finalStatus])
        = (procStep idx a o cs pre n).newCs := by
  simp only [countPos] at hpre ⊢
  obtain ⟨f, ha, he, r, rx⟩ := o
  cases f <;> cases ha <;> cases he <;> cases r <;> cases rx <;>
    simp [procStep, resolutionPhase, mkSnap, countPos, List.countP_append,
          List.countP_cons, countP_pending_replicate, hpre]

/-- The loop maintains the commit invariant of `procStep_snaps_ok` across
all iterations. -/
theorem execLoop_snaps_ok :
    ∀ (l : List (StepRec × StepOracle)) (flag : Bool) (idx : Nat)
      (acc acc2 : EngAcc) (b : Bool),
      execLoop flag idx acc l = (acc2, b) →
      countPos acc.statuses = acc.cs →
      (∀ sn ∈ acc.snaps, countPos sn.statuses = sn.cs + (if sn.isCompletion then 1 else 0)) →
      (∀ sn ∈ acc2.snaps, countPos sn.statuses = sn.cs + (if sn.isCompletion then 1 else 0))
      ∧ countPos acc2.statuses = acc2.cs := by
  intro l
  induction l with
  | nil =>
    intro flag idx acc acc2 b h hcs hsn
    simp only [execLoop, Prod.mk.injEq] at h
    obtain ⟨h1, _⟩ := h
    subst h1
    exact ⟨hsn, hcs⟩
  | cons p rest ih =>
    obtain ⟨s, o⟩ := p
    intro flag idx acc acc2 b h hcs hsn
    simp only [execLoop] at h
    cases flag with
    | true =>
      rw [if_pos rfl] at h
      have hcs' : List.countP (fun s => s == "completed" || s == "skipped") acc.statuses
          = acc.cs := hcs
      refine ih _ _ _ _ _ h ?_ ?_
      · simp [countPos, List.countP_append, List.countP_cons, hcs']
      · intro sn hsn2
        rcases List.mem_append.mp hsn2 with hmem | hmem
        · exact hsn sn hmem
        · simp only [List.mem_singleton] at hmem
          subst hmem
          simp [countPos, List.countP_append, List.countP_cons,
                countP_pending_replicate, hcs']
    | false =>
      rw [if_neg Bool.false_ne_true] at h
      have hPS := procStep_snaps_ok idx s.action o acc.cs acc.statuses rest.length hcs
      by_cases hab : (procStep idx s.action o acc.cs acc.statuses rest.length).aborted = true
      · rw [if_pos hab] at h
        simp only [Prod.mk.injEq] at h
        obtain ⟨h1, _⟩ := h
        subst h1
        constructor
        · intro sn hsn2
          rcases List.mem_append.mp hsn2 with hmem | hmem
          · exact hsn sn hmem
          · exact hPS.1 sn hmem
        · have h2 := hPS.2
          simp only [countPos, List.countP_append, countP_pending_replicate] at h2 ⊢
          omega
      · rw [if_neg hab] at h
        refine ih _ _ _ _ _ h hPS.2 ?_
        intro sn hsn2
        rcases List.mem_append.mp hsn2 with hmem | hmem
        · exact hsn sn hmem
        · exact hPS.1 sn hmem

/-- A loop that finishes without aborting leaves every processed step
`completed` or `skipped`. -/
theorem execLoop_completed_statuses :
    ∀ (l : List (StepRec × StepOracle)) (flag : Bool) (idx : Nat)
      (acc acc2 : EngAcc),
      execLoop flag idx acc l = (acc2, false) →
      (∀ s ∈ acc.statuses, s = "completed" ∨ s = "skipped") →
      ∀ s ∈ acc2.statuses, s = "completed" ∨ s = "skipped" := by
  intro l
  induction l with
  | nil =>
    intro flag idx acc acc2 h hpre
    simp only [execLoop, Prod.mk.injEq] at h
    obtain ⟨h1, _⟩ := h
    subst h1
    exact hpre
  | cons p rest ih =>
    obtain ⟨s, o⟩ := p
    intro flag idx acc acc2 h hpre
    simp only [execLoop] at h
    cases flag with
    | true =>
      rw [if_pos rfl] at h
      refine ih _ _ _ _ h ?_
      intro x hx
      rcases List.mem_append.mp hx with hx | hx
      · exact hpre x hx
      · simp only [List.mem_singleton] at hx
        exact Or.inr hx
    | false =>
      rw [if_neg Bool.false_ne_true] at h
      by_cases hab : (procStep idx s.action o acc.cs acc.statuses rest.length).aborted = true
      · rw [if_pos hab] at h
        simp only [Prod.mk.injEq] at h
        exact absurd h.2 (by decide)
      · rw [if_neg hab] at h
        refine ih _ _ _ _ h ?_
        intro x hx
        rcases List.mem_append.mp hx with hx | hx
        · exact hpre x hx
        · simp only [List.mem_singleton] at hx
          subst hx
          exact procStep_final_of_not_aborted idx s.action o acc.cs acc.statuses rest.length
            (Bool.not_eq_true _ ▸ hab)

/-- C2 amended: a run that reaches the terminal status `completed` has
every step in a terminal status (in fact `completed` or `skipped`); but a
run that transitions to `failed` through an abort resolution or a failed
retry leaves the steps after the failing one `pending` (and can leave the
failing step `running`), so the terminal-step count equals `total_steps`
only for completed runs. -/
theorem c2_terminal_steps_amended (steps : List StepRec) (oracles : List StepOracle)
    (h : (executeRun steps oracles).runStatus = "completed") :
    ∀ s ∈ (executeRun steps oracles).statuses, s = "completed" ∨ s = "skipped" := by
  revert h
  unfold executeRun
  rcases hE : execLoop false 0 (initAcc steps.length) (steps.zip oracles) with ⟨acc, b⟩
  cases b with
  | true =>
    intro h
    exact absurd h (by simp [finishRun])
  | false =>
    intro _
    simp only [finishRun]
    exact execLoop_completed_statuses _ _ _ _ _ hE (by simp [initAcc])

/-- Witness for `c2_terminal_steps_amended` at a concrete completed run. -/
theorem c2_terminal_steps_amended_witness :
    (executeRun [clickStep] [okOracle]).runStatus = "completed"
  ∧ ("completed" ∈ (executeRun [clickStep] [okOracle]).statuses →
      "completed" = "completed" ∨ "completed" = "skipped") :=
  ⟨by decide, fun hm => c2_terminal_steps_amended [clickStep] [okOracle] (by decide) "completed" hm⟩

/-- C8 amended: at every commit of the execution loop the number of
`completed`/`skipped` steps equals `run.completed_steps`, except at the
step-completion commit inside `_execute_step` (line 667), where the count
runs exactly one ahead of the yet-to-be-incremented counter. -/
theorem c8_completed_steps_amended (steps : List StepRec) (oracles : List StepOracle) :
    ∀ sn ∈ (executeRun steps oracles).snaps,
      countPos sn.statuses = sn.cs + (if sn.isCompletion then 1 else 0) := by
  unfold executeRun
  rcases hE : execLoop false 0 (initAcc steps.length) (steps.zip oracles) with ⟨acc, b⟩
  have hInit1 : countPos (initAcc steps.length).statuses = (initAcc steps.length).cs := by
    simp [initAcc, countPos]
  have hInit2 : ∀ sn ∈ (initAcc steps.length).snaps,
      countPos sn.statuses = sn.cs + (if sn.isCompletion then 1 else 0) := by
    intro sn hm
    simp only [initAcc, List.mem_singleton] at hm
    subst hm
    simp [countPos, countP_pending_replicate]
  have hLoop := execLoop_snaps_ok _ _ _ _ _ _ hE hInit1 hInit2
  cases b with
  | true =>
    simp only [finishRun]
    exact hLoop.1
  | false =>
    simp only [finishRun]
    intro sn hm
    rcases List.mem_append.mp hm with hm | hm
    · exact hLoop.1 sn hm
    · simp only [List.mem_singleton] at hm
      subst hm
      simp [hLoop.2]

/-- Witness for `c8_completed_steps_amended` at a concrete commit. -/
theorem c8_completed_steps_amended_witness :
    (⟨1, ["completed"], false⟩ : Snap) ∈ (executeRun [clickStep] [okOracle]).snaps
  ∧ countPos (["completed"] : List String) = 1 + (if false then 1 else 0) :=
  ⟨by decide,
   c8_completed_steps_amended [clickStep] [okOracle] ⟨1, ["completed"], false⟩ (by decide)⟩

/-! ## Event and disposition machinery for C3, C9, C10 -/

theorem get?_replicate {α : Type} (a : α) :
    ∀ (k n : Nat), (List.replicate k a).get? n = if n < k then some a else none := by
  intro k
  induction k with
  | zero => intro n; simp
  | succ m ih =>
    intro n
    cases n with
    | zero => simp [List.replicate_succ]
    | succ n =>
      rw [List.replicate_succ]
      show (List.replicate m a).get? n = _
      rw [ih]
      simp [Nat.succ_lt_succ_iff]

theorem lt_length_of_get?_eq_some {α : Type} {l : List α} {n : Nat} {a : α}
    (h : l.get? n = some a) : n < l.length := by
  by_contra hn
  rw [List.get?_eq_none.mpr (by omega)] at h
  cases h

/-- All step ids of an event list are below `n`. -/
def eventsIdLt (es : List Event) (n : Nat) : Prop :=
  ∀ e ∈ es, ∀ j, e.idOf = some j → j < n

theorem filterById_append (i : Nat) (a b : List Event) :
    filterById i (a ++ b) = filterById i a ++ filterById i b := by
  simp [filterById, List.filter_append]

theorem filterById_nil_of (i : Nat) (es : List Event)
    (h : ∀ e ∈ es, e.idOf ≠ some i) : filterById i es = [] := by
  unfold filterById
  rw [List.filter_eq_nil_iff]
  intro e he
  simp [h e he]

/-- Every event emitted by one loop iteration carries that step's id or
no id at all (only `run_failed` has none). -/
theorem procStep_events_id (idx : Nat) (a : String) (o : StepOracle) (cs : Nat)
    (pre : List String) (n : Nat) :
    ∀ e ∈ (procStep idx a o cs pre n).events, e.idOf = some idx ∨ e.idOf = none := by
  obtain ⟨f, ha, he, r, rx⟩ := o
  cases f <;> cases ha <;> cases he <;> cases r <;> cases rx <;>
    simp [procStep, resolutionPhase, Event.idOf]

/-- Events added by the loop from index `idx` on have ids at least `idx`
(or no id). -/
theorem execLoop_events_mono :
    ∀ (l : List (StepRec × StepOracle)) (flag : Bool) (idx : Nat)
      (acc acc2 : EngAcc) (b : Bool),
      execLoop flag idx acc l = (acc2, b) →
      ∀ e ∈ acc2.events, e ∈ acc.events ∨ (∀ j, e.idOf = some j → idx ≤ j) := by
  intro l
  induction l with
  | nil =>
    intro flag idx acc acc2 b h e he
    simp only [execLoop, Prod.mk.injEq] at h
    obtain ⟨h1, _⟩ := h
    subst h1
    exact Or.inl he
  | cons p rest ih =>
    obtain ⟨s, o⟩ := p
    intro flag idx acc acc2 b h e he
    simp only [execLoop] at h
    cases flag with
    | true =>
      rw [if_pos rfl] at h
      rcases ih _ _ _ _ _ h e he with hmem | hge
      · rcases List.mem_append.mp hmem with hmem | hmem
        · exact Or.inl hmem
        · simp only [List.mem_singleton] at hmem
          subst hmem
          exact Or.inr (by intro j hj; simp [Event.idOf] at hj; omega)
      · exact Or.inr (fun j hj => le_of_lt (lt_of_lt_of_le (Nat.lt_succ_self idx) (hge j hj)))
    | false =>
      rw [if_neg Bool.false_ne_true] at h
      by_cases hab : (procStep idx s.action o acc.cs acc.statuses rest.length).aborted = true
      · rw [if_pos hab] at h
        simp only [Prod.mk.injEq] at h
        obtain ⟨h1, _⟩ := h
        subst h1
        rcases List.mem_append.mp he with hmem | hmem
        · exact Or.inl hmem
        · rcases procStep_events_id idx s.action o acc.cs acc.statuses rest.length e hmem with
            hid | hid
          · exact Or.inr (fun j hj => by rw [hid] at hj; cases hj; omega)
          · exact Or.inr (fun j hj => by rw [hid] at hj; cases hj)
      · rw [if_neg hab] at h
        rcases ih _ _ _ _ _ h e he with hmem | hge
        · rcases List.mem_append.mp hmem with hmem | hmem
          · exact Or.inl hmem
          · rcases procStep_events_id idx s.action o acc.cs acc.statuses rest.length e hmem with
              hid | hid
            · exact Or.inr (fun j hj => by rw [hid] at hj; cases hj; omega)
            · exact Or.inr (fun j hj => by rw [hid] at hj; cases hj)
        · exact Or.inr (fun j hj => le_of_lt (lt_of_lt_of_le (Nat.lt_succ_self idx) (hge j hj)))

/-- Resolution requests added by the loop from index `idx` on are for
steps at least `idx`. -/
theorem execLoop_reqs_mono :
    ∀ (l : List (StepRec × StepOracle)) (flag : Bool) (idx : Nat)
      (acc acc2 : EngAcc) (b : Bool),
      execLoop flag idx acc l = (acc2, b) →
      ∀ r ∈ acc2.reqs, r ∈ acc.reqs ∨ idx ≤ r := by
  intro l
  induction l with
  | nil =>
    intro flag idx acc acc2 b h r hr
    simp only [execLoop, Prod.mk.injEq] at h
    obtain ⟨h1, _⟩ := h
    subst h1
    exact Or.inl hr
  | cons p rest ih =>
    obtain ⟨s, o⟩ := p
    intro flag idx acc acc2 b h r hr
    simp only [execLoop] at h
    cases flag with
    | true =>
      rw [if_pos rfl] at h
      rcases ih _ _ _ _ _ h r hr with hmem | hge
      · exact Or.inl hmem
      · exact Or.inr (by omega)
    | false =>
      rw [if_neg Bool.false_ne_true] at h
      by_cases hab : (procStep idx s.action o acc.cs acc.statuses rest.length).aborted = true
      · rw [if_pos hab] at h
        simp only [Prod.mk.injEq] at h
        obtain ⟨h1, _⟩ := h
        subst h1
        rcases List.mem_append.mp hr with hmem | hmem
        · exact Or.inl hmem
        · split at hmem
          · simp only [List.mem_singleton] at hmem
            subst hmem
            exact Or.inr le_rfl
          · cases hmem
      · rw [if_neg hab] at h
        rcases ih _ _ _ _ _ h r hr with hmem | hge
        · rcases List.mem_append.mp hmem with hmem | hmem
          · exact Or.inl hmem
          · split at hmem
            · simp only [List.mem_singleton] at hmem
              subst hmem
              exact Or.inr le_rfl
            · cases hmem
        · exact Or.inr (by omega)

/-- The loop only appends to the disposition list. -/
theorem execLoop_disps_extend :
    ∀ (l : List (StepRec × StepOracle)) (flag : Bool) (idx : Nat)
      (acc acc2 : EngAcc) (b : Bool),
      execLoop flag idx acc l = (acc2, b) →
      ∃ d, acc2.disps = acc.disps ++ d := by
  intro l
  induction l with
  | nil =>
    intro flag idx acc acc2 b h
    simp only [execLoop, Prod.mk.injEq] at h
    obtain ⟨h1, _⟩ := h
    subst h1
    exact ⟨[], by simp⟩
  | cons p rest ih =>
    obtain ⟨s, o⟩ := p
    intro flag idx acc acc2 b h
    simp only [execLoop] at h
    cases flag with
    | true =>
      rw [if_pos rfl] at h
      obtain ⟨d, hd⟩ := ih _ _ _ _ _ h
      exact ⟨[Disp.flagSkipped] ++ d, by simp only [hd]; simp⟩
    | false =>
      rw [if_neg Bool.false_ne_true] at h
      by_cases hab : (procStep idx s.action o acc.cs acc.statuses rest.length).aborted = true
      · rw [if_pos hab] at h
        simp only [Prod.mk.injEq] at h
        obtain ⟨h1, _⟩ := h
        subst h1
        exact ⟨[Disp.executed] ++ List.replicate rest.length Disp.notReached, by simp⟩
      · rw [if_neg hab] at h
        obtain ⟨d, hd⟩ := ih _ _ _ _ _ h
        exact ⟨[Disp.executed] ++ d, by simp only [hd]; simp⟩

/-- Within the loop, a flag-skipped step is recorded `skipped` and its
events consist of exactly one
`step_skipped(reason = conditional_branch_false)`. -/
theorem execLoop_flagSkipped_events :
    ∀ (l : List (StepRec × StepOracle)) (flag : Bool) (idx : Nat)
      (acc acc2 : EngAcc) (b : Bool),
      execLoop flag idx acc l = (acc2, b) →
      idx = acc.disps.length →
      acc.statuses.length = acc.disps.length →
      eventsIdLt acc.events idx →
      (∀ i, acc.disps.get? i = some .flagSkipped →
          acc.statuses.get? i = some "skipped"
          ∧ filterById i acc.events = [.stepSkipped i (some "conditional_branch_false")]) →
      ∀ i, acc2.disps.get? i = some .flagSkipped →
        acc2.statuses.get? i = some "skipped"
        ∧ filterById i acc2.events = [.stepSkipped i (some "conditional_branch_false")] := by
  intro l
  induction l with
  | nil =>
    intro flag idx acc acc2 b h _ _ _ hP i hi
    simp only [execLoop, Prod.mk.injEq] at h
    obtain ⟨h1, _⟩ := h
    subst h1
    exact hP i hi
  | cons p rest ih =>
    obtain ⟨s, o⟩ := p
    intro flag idx acc acc2 b h hidx hlen hev hP i hi
    subst hidx
    simp only [execLoop] at h
    cases flag with
    | true =>
      rw [if_pos rfl] at h
      refine ih _ _ _ _ _ h (by simp) (by simp [hlen]) ?_ ?_ i hi
      · intro e he j hj
        rcases List.mem_append.mp he with hm | hm
        · exact Nat.lt_succ_of_lt (hev e hm j hj)
        · simp only [List.mem_singleton] at hm
          subst hm
          simp only [Event.idOf, Option.some.injEq] at hj
          omega
      · intro i2 hi2
        by_cases hlt : i2 < acc.disps.length
        · rw [List.get?_append hlt] at hi2
          obtain ⟨hs, hf⟩ := hP i2 hi2
          have hnil : filterById i2 [Event.stepSkipped acc.disps.length
              (some "conditional_branch_false")] = [] := by
            apply filterById_nil_of
            intro e he
            simp only [List.mem_singleton] at he
            subst he
            simp only [Event.idOf, ne_eq, Option.some.injEq]
            omega
          refine ⟨?_, ?_⟩
          · rw [List.get?_append (by omega)]
            exact hs
          · rw [filterById_append, hf, hnil, List.append_nil]
        · have hi2len : i2 = acc.disps.length := by
            have := lt_length_of_get?_eq_some hi2
            simp at this
            omega
          subst hi2len
          have hnilE : filterById acc.disps.length acc.events = [] := by
            apply filterById_nil_of
            intro e he hc
            exact absurd (hev e he _ hc) (lt_irrefl _)
          refine ⟨?_, ?_⟩
          · rw [show acc.disps.length = acc.statuses.length from hlen.symm,
                List.get?_concat_length]
          · rw [filterById_append, hnilE]
            simp [filterById, Event.idOf]
    | false =>
      rw [if_neg Bool.false_ne_true] at h
      by_cases hab :
          (procStep acc.disps.length s.action o acc.cs acc.statuses rest.length).aborted = true
      · rw [if_pos hab] at h
        simp only [Prod.mk.injEq] at h
        obtain ⟨h1, _⟩ := h
        subst h1
        by_cases hlt : i < acc.disps.length
        · simp only [List.append_assoc] at hi
          rw [List.get?_append hlt] at hi
          obtain ⟨hs, hf⟩ := hP i hi
          have hnil : filterById i
              (procStep acc.disps.length s.action o acc.cs acc.statuses rest.length).events
              = [] := by
            apply filterById_nil_of
            intro e he hc
            rcases procStep_events_id _ _ _ _ _ _ e he with hid | hid
            · rw [hid] at hc
              cases hc
              omega
            · rw [hid] at hc
              cases hc
          refine ⟨?_, ?_⟩
          · simp only [List.append_assoc]
            rw [List.get?_append (by omega)]
            exact hs
          · simp only
            rw [filterById_append, hf, hnil, List.append_nil]
        · exfalso
          simp only [List.append_assoc] at hi
          rw [List.get?_append_right (by omega)] at hi
          have hmem := List.get?_mem hi
          rcases List.mem_append.mp hmem with hm | hm
          · simp at hm
          · have := List.eq_of_mem_replicate hm
            cases this
      · rw [if_neg hab] at h
        refine ih _ _ _ _ _ h (by simp) (by simp [hlen]) ?_ ?_ i hi
        · intro e he j hj
          rcases List.mem_append.mp he with hm | hm
          · exact Nat.lt_succ_of_lt (hev e hm j hj)
          · rcases procStep_events_id _ _ _ _ _ _ e hm with hid | hid
            · rw [hid] at hj
              cases hj
              omega
            · rw [hid] at hj
              cases hj
        · intro i2 hi2
          by_cases hlt : i2 < acc.disps.length
          · rw [List.get?_append hlt] at hi2
            obtain ⟨hs, hf⟩ := hP i2 hi2
            have hnil : filterById i2
                (procStep acc.disps.length s.action o acc.cs acc.statuses rest.length).events
                = [] := by
              apply filterById_nil_of
              intro e he hc
              rcases procStep_events_id _ _ _ _ _ _ e he with hid | hid
              · rw [hid] at hc
                cases hc
                omega
              · rw [hid] at hc
                cases hc
            refine ⟨?_, ?_⟩
            · rw [List.get?_append (by omega)]
              exact hs
            · rw [filterById_append, hf, hnil, List.append_nil]
          · exfalso
            have hi2len : i2 = acc.disps.length := by
              have := lt_length_of_get?_eq_some hi2
              simp at this
              omega
            subst hi2len
            rw [List.get?_concat_length] at hi2
            cases hi2

/-- The loop never flag-skips two consecutive steps: a flag-skip clears
the flag before advancing and the skipped step is not executed, so only
an executed conditional can set the flag again. -/
theorem execLoop_no_consecutive_flag :
    ∀ (l : List (StepRec × StepOracle)) (flag : Bool) (idx : Nat)
      (acc acc2 : EngAcc) (b : Bool),
      execLoop flag idx acc l = (acc2, b) →
      (∀ i, acc.disps.get? i = some .flagSkipped →
          acc.disps.get? (i+1) ≠ some .flagSkipped ∨ i + 1 = acc.disps.length) →
      (acc.disps.getLast? = some .flagSkipped → flag = false) →
      ∀ i, acc2.disps.get? i = some .flagSkipped →
        acc2.disps.get? (i+1) ≠ some .flagSkipped := by
  intro l
  induction l with
  | nil =>
    intro flag idx acc acc2 b h hP hB i hi
    simp only [execLoop, Prod.mk.injEq] at h
    obtain ⟨h1, _⟩ := h
    subst h1
    rcases hP i hi with hne | heq
    · exact hne
    · intro hc
      rw [List.get?_eq_none.mpr (by omega)] at hc
      cases hc
  | cons p rest ih =>
    obtain ⟨s, o⟩ := p
    intro flag idx acc acc2 b h hP hB i hi
    simp only [execLoop] at h
    cases flag with
    | true =>
      rw [if_pos rfl] at h
      refine ih _ _ _ _ _ h ?_ (fun _ => rfl) i hi
      intro i2 hi2
      by_cases hlt : i2 < acc.disps.length
      · rw [List.get?_append hlt] at hi2
        by_cases hlt1 : i2 + 1 < acc.disps.length
        · rcases hP i2 hi2 with hne | heq
          · left
            rw [List.get?_append hlt1]
            exact hne
          · omega
        · have h1 : i2 + 1 = acc.disps.length := by omega
          exfalso
          have hlast : acc.disps.getLast? = some Disp.flagSkipped := by
            rw [List.getLast?_eq_get? ]
            have : acc.disps.length - 1 = i2 := by omega
            rw [this]
            exact hi2
          exact absurd (hB hlast) (by decide)
      · have hil : i2 = acc.disps.length := by
          have := lt_length_of_get?_eq_some hi2
          simp at this
          omega
        right
        simp [hil]
    | false =>
      rw [if_neg Bool.false_ne_true] at h
      by_cases hab :
          (procStep idx s.action o acc.cs acc.statuses rest.length).aborted = true
      · rw [if_pos hab] at h
        simp only [Prod.mk.injEq] at h
        obtain ⟨h1, _⟩ := h
        subst h1
        intro hc
        by_cases hlt : i < acc.disps.length
        · simp only [List.append_assoc] at hi hc
          rw [List.get?_append hlt] at hi
          by_cases hlt1 : i + 1 < acc.disps.length
          · rw [List.get?_append hlt1] at hc
            rcases hP i hi with hne | heq
            · exact hne hc
            · omega
          · have h1 : i + 1 = acc.disps.length := by omega
            rw [List.get?_append_right (by omega)] at hc
            have h2 : i + 1 - acc.disps.length = 0 := by omega
            rw [h2] at hc
            simp at hc
        · simp only [List.append_assoc] at hi
          rw [List.get?_append_right (by omega)] at hi
          have hmem := List.get?_mem hi
          rcases List.mem_append.mp hmem with hm | hm
          · simp at hm
          · have := List.eq_of_mem_replicate hm
            cases this
      · rw [if_neg hab] at h
        refine ih _ _ _ _ _ h ?_ ?_ i hi
        · intro i2 hi2
          by_cases hlt : i2 < acc.disps.length
          · rw [List.get?_append hlt] at hi2
            by_cases hlt1 : i2 + 1 < acc.disps.length
            · rcases hP i2 hi2 with hne | heq
              · left
                rw [List.get?_append hlt1]
                exact hne
              · omega
            · left
              have h1 : i2 + 1 = acc.disps.length := by omega
              rw [h1, List.get?_concat_length]
              intro hc
              cases hc
          · exfalso
            have hil : i2 = acc.disps.length := by
              have := lt_length_of_get?_eq_some hi2
              simp at this
              omega
            subst hil
            rw [List.get?_concat_length] at hi2
            cases hi2
        · intro hc
          rw [List.getLast?_concat] at hc
          cases hc

/-- Within the loop, an executed conditional whose result signals
`skip_next` makes the immediately following step (when one exists)
flag-skipped. -/
theorem execLoop_condskip_next :
    ∀ (l : List (StepRec × StepOracle)) (flag : Bool) (idx : Nat)
      (acc acc2 : EngAcc) (b : Bool),
      execLoop flag idx acc l = (acc2, b) →
      idx = acc.disps.length →
      ∀ (pos : Nat) (s : StepRec) (o : StepOracle) (res : RJson),
        l.get? pos = some (s, o) →
        s.action = "conditional" →
        o.first = .ok res →
        skipSignal res = true →
        acc2.disps.get? (idx + pos) = some .executed →
        pos + 1 < l.length →
        acc2.disps.get? (idx + pos + 1) = some .flagSkipped := by
  intro l
  induction l with
  | nil =>
    intro flag idx acc acc2 b h _ pos s o res hget
    simp at hget
  | cons p rest ih =>
    obtain ⟨s0, o0⟩ := p
    intro flag idx acc acc2 b h hidx pos s o res hget haction hfirst hsig hd hlen
    subst hidx
    simp only [execLoop] at h
    cases flag with
    | true =>
      rw [if_pos rfl] at h
      cases pos with
      | zero =>
        exfalso
        obtain ⟨d, hdp⟩ := execLoop_disps_extend _ _ _ _ _ _ h
        simp only [hdp] at hd
        rw [Nat.add_zero, List.get?_append (by simp), List.get?_concat_length] at hd
        cases hd
      | succ p2 =>
        have harith : acc.disps.length + (p2 + 1) = acc.disps.length + 1 + p2 := by omega
        rw [harith] at hd ⊢
        exact ih _ _ _ _ _ h (by simp) p2 s o res (by simpa using hget) haction hfirst hsig hd
          (by simp at hlen ⊢; omega)
    | false =>
      rw [if_neg Bool.false_ne_true] at h
      cases pos with
      | zero =>
        rw [Nat.add_zero] at hd ⊢
        have hso : s0 = s ∧ o0 = o := by simpa using hget
        obtain ⟨rfl, rfl⟩ := hso
        have hps : procStep acc.disps.length s0.action o0 acc.cs acc.statuses rest.length
            = { newCs := acc.cs + 1, finalStatus := "completed",
                events := [.stepStarted acc.disps.length, .stepCompleted acc.disps.length],
                snaps := [mkSnap acc.statuses rest.length "running" acc.cs false,
                          mkSnap acc.statuses rest.length "completed" acc.cs true,
                          mkSnap acc.statuses rest.length "completed" (acc.cs + 1) false],
                requested := false, newSkip := true, aborted := false } := by
          simp [procStep, hfirst, haction, hsig]
        rw [hps] at h
        simp only [List.append_nil, Bool.false_eq_true, if_false, if_neg] at h
        obtain ⟨s1, rest1, hrest⟩ : ∃ s1 rest1, rest = s1 :: rest1 := by
          cases rest with
          | nil => simp at hlen
          | cons a t => exact ⟨a, t, rfl⟩
        subst hrest
        simp only [execLoop, if_true] at h
        obtain ⟨d, hdp⟩ := execLoop_disps_extend _ _ _ _ _ _ h
        simp only at hdp
        rw [hdp, List.get?_append (by simp)]
        have hlen2 : (acc.disps ++ [Disp.executed]).length = acc.disps.length + 1 := by simp
        rw [← hlen2, List.get?_concat_length]
      | succ p2 =>
        by_cases hab :
            (procStep acc.disps.length s0.action o0 acc.cs acc.statuses rest.length).aborted
              = true
        · rw [if_pos hab] at h
          simp only [Prod.mk.injEq] at h
          obtain ⟨h1, _⟩ := h
          subst h1
          exfalso
          simp only [List.append_assoc] at hd
          rw [List.get?_append_right (by omega)] at hd
          have hidx2 : acc.disps.length + (p2 + 1) - acc.disps.length = p2 + 1 := by omega
          rw [hidx2] at hd
          rw [List.get?_append_right (by simp)] at hd
          have hidx3 : p2 + 1 - ([Disp.executed] : List Disp).length = p2 := by simp
          rw [hidx3, get?_replicate] at hd
          split at hd
          · cases hd
          · cases hd
        · rw [if_neg hab] at h
          have harith : acc.disps.length + (p2 + 1) = acc.disps.length + 1 + p2 := by omega
          rw [harith] at hd ⊢
          exact ih _ _ _ _ _ h (by simp) p2 s o res (by simpa using hget) haction hfirst hsig hd
            (by simp at hlen ⊢; omega)

/-- A conditional step that failed. -/
def condStep : StepRec := ⟨1, "conditional", "", none, "check the data", some "5 > 10"⟩

/-- Oracle of a conditional whose result evaluates false (skip_next). -/
def condSkipOracle : StepOracle :=
  ⟨.ok ⟨some "skip_next", some false⟩, false, .ok ⟨none, none⟩, .abort, .ok ⟨none, none⟩⟩

/-- Oracle of a conditional executed by the simulation backend. -/
def simCondOracle : StepOracle :=
  ⟨.ok ⟨some "continue", some true⟩, false, .ok ⟨none, none⟩, .abort, .ok ⟨none, none⟩⟩

/-- C9: skipping never cascades.  (1) An executed conditional whose
result signals `skip_next` flag-skips exactly the immediately following
step (when one exists).  (2) A flag-skipped step is marked `skipped`
with exactly the one `step_skipped(conditional_branch_false)` event (it
is never executed), and the step after it is never flag-skipped, so two
consecutive steps are never both skipped by a single conditional. -/
theorem c9_skip_never_cascades :
    (∀ (steps : List StepRec) (oracles : List StepOracle) (i : Nat)
        (s : StepRec) (o : StepOracle) (res : RJson),
        (steps.zip oracles).get? i = some (s, o) →
        s.action = "conditional" →
        o.first = .ok res →
        skipSignal res = true →
        (executeRun steps oracles).disps.get? i = some .executed →
        i + 1 < (steps.zip oracles).length →
        (executeRun steps oracles).disps.get? (i + 1) = some .flagSkipped)
  ∧ (∀ (steps : List StepRec) (oracles : List StepOracle) (i : Nat),
        (executeRun steps oracles).disps.get? i = some .flagSkipped →
        (executeRun steps oracles).statuses.get? i = some "skipped"
        ∧ filterById i (executeRun steps oracles).events
            = [.stepSkipped i (some "conditional_branch_false")]
        ∧ (executeRun steps oracles).disps.get? (i + 1) ≠ some .flagSkipped) := by
  constructor
  · intro steps oracles i s o res hget haction hfirst hsig
    unfold executeRun
    rcases hE : execLoop false 0 (initAcc steps.length) (steps.zip oracles) with ⟨acc, b⟩
    have key := execLoop_condskip_next _ _ _ _ _ _ hE (by simp [initAcc])
      i s o res hget haction hfirst hsig
    simp only [Nat.zero_add] at key
    cases b with
    | true =>
      intro hd hlen
      simp only [finishRun] at hd ⊢
      exact key hd hlen
    | false =>
      intro hd hlen
      simp only [finishRun] at hd ⊢
      exact key hd hlen
  · intro steps oracles i
    unfold executeRun
    rcases hE : execLoop false 0 (initAcc steps.length) (steps.zip oracles) with ⟨acc, b⟩
    have hA := execLoop_flagSkipped_events _ _ _ _ _ _ hE (by simp [initAcc]) (by simp [initAcc])
      (by
        intro e he j hj
        simp only [initAcc, List.mem_singleton] at he
        subst he
        simp [Event.idOf] at hj)
      (by
        intro i2 hi2
        simp [initAcc] at hi2)
    have hB := execLoop_no_consecutive_flag _ _ _ _ _ _ hE
      (by
        intro i2 hi2
        simp [initAcc] at hi2)
      (by
        intro hc
        simp [initAcc] at hc)
    cases b with
    | true =>
      intro h
      simp only [finishRun] at h ⊢
      obtain ⟨hs, hf⟩ := hA i h
      exact ⟨hs, hf, hB i h⟩
    | false =>
      intro h
      simp only [finishRun] at h ⊢
      obtain ⟨hs, hf⟩ := hA i h
      refine ⟨hs, ?_, hB i h⟩
      rw [filterById_append, hf,
          filterById_nil_of _ _ (by
            intro e he
            simp only [List.mem_singleton] at he
            subst he
            simp [Event.idOf]),
          List.append_nil]

/-- Witness for `c9_skip_never_cascades`: a conditional evaluating false
flag-skips exactly the next step, that step is marked skipped with the
single branch event, and the one after it is not flag-skipped. -/
theorem c9_skip_never_cascades_witness :
    (executeRun [condStep, clickStep, clickStep]
        [condSkipOracle, okOracle, okOracle]).disps.get? 1 = some Disp.flagSkipped
  ∧ (executeRun [condStep, clickStep, clickStep]
        [condSkipOracle, okOracle, okOracle]).statuses.get? 1 = some "skipped"
  ∧ filterById 1 (executeRun [condStep, clickStep, clickStep]
        [condSkipOracle, okOracle, okOracle]).events
      = [.stepSkipped 1 (some "conditional_branch_false")]
  ∧ (executeRun [condStep, clickStep, clickStep]
        [condSkipOracle, okOracle, okOracle]).disps.get? 2 ≠ some Disp.flagSkipped := by
  refine ⟨?_, ?_, ?_, ?_⟩
  · simpa using c9_skip_never_cascades.1 [condStep, clickStep, clickStep]
      [condSkipOracle, okOracle, okOracle] 0 condStep condSkipOracle
      ⟨some "skip_next", some false⟩ rfl rfl rfl (by decide) (by decide) (by decide)
  · exact (c9_skip_never_cascades.2 [condStep, clickStep, clickStep]
      [condSkipOracle, okOracle, okOracle] 1 (by decide)).1
  · exact (c9_skip_never_cascades.2 [condStep, clickStep, clickStep]
      [condSkipOracle, okOracle, okOracle] 1 (by decide)).2.1
  · exact (c9_skip_never_cascades.2 [condStep, clickStep, clickStep]
      [condSkipOracle, okOracle, okOracle] 1 (by decide)).2.2

/-- One loop iteration never emits a
`step_skipped(conditional_branch_false)` event (the resolution skip path
emits `step_skipped` with no reason). -/
theorem procStep_no_condskip_event (idx : Nat) (a : String) (o : StepOracle) (cs : Nat)
    (pre : List String) (n : Nat) :
    ∀ j, Event.stepSkipped j (some "conditional_branch_false")
        ∉ (procStep idx a o cs pre n).events := by
  intro j
  obtain ⟨f, ha, he, r, rx⟩ := o
  cases f <;> cases ha <;> cases he <;> cases r <;> cases rx <;>
    simp [procStep, resolutionPhase]

/-- When every conditional outcome is the simulation result
(`branch_taken = continue`, `evaluated_to = true`), one loop iteration
never sets the `skip_next` flag. -/
theorem procStep_newSkip_false (idx : Nat) (a : String) (o : StepOracle) (cs : Nat)
    (pre : List String) (n : Nat)
    (hcond : a = "conditional" → o.first = .ok ⟨some "continue", some true⟩) :
    (procStep idx a o cs pre n).newSkip = false := by
  obtain ⟨f, ha, he, r, rx⟩ := o
  cases f with
  | ok res =>
    simp only [procStep]
    by_cases hA : a = "conditional"
    · have hres := hcond hA
      simp only [ExecOutcome.ok.injEq] at hres
      subst hres
      simp [skipSignal]
    · have : (a == "conditional") = false := beq_eq_false_iff_ne.mpr hA
      simp [this]
  | err m =>
    cases ha <;> cases he <;> cases r <;> cases rx <;>
      simp [procStep, resolutionPhase]

/-- With simulation-style conditional outcomes the loop never flag-skips
any step and never emits a `conditional_branch_false` skip event. -/
theorem execLoop_sim_no_condskip :
    ∀ (l : List (StepRec × StepOracle)) (idx : Nat) (acc acc2 : EngAcc) (b : Bool),
      execLoop false idx acc l = (acc2, b) →
      (∀ p ∈ l, p.1.action = "conditional" →
          p.2.first = .ok ⟨some "continue", some true⟩) →
      Disp.flagSkipped ∉ acc.disps →
      (∀ j, Event.stepSkipped j (some "conditional_branch_false") ∉ acc.events) →
      Disp.flagSkipped ∉ acc2.disps
      ∧ ∀ j, Event.stepSkipped j (some "conditional_branch_false") ∉ acc2.events := by
  intro l
  induction l with
  | nil =>
    intro idx acc acc2 b h _ hd hevv
    simp only [execLoop, Prod.mk.injEq] at h
    obtain ⟨h1, _⟩ := h
    subst h1
    exact ⟨hd, hevv⟩
  | cons p rest ih =>
    obtain ⟨s, o⟩ := p
    intro idx acc acc2 b h hsim hd hevv
    simp only [execLoop] at h
    rw [if_neg Bool.false_ne_true] at h
    have hns : (procStep idx s.action o acc.cs acc.statuses rest.length).newSkip = false :=
      procStep_newSkip_false _ _ _ _ _ _ (fun hA => hsim (s, o) (by simp) hA)
    by_cases hab : (procStep idx s.action o acc.cs acc.statuses rest.length).aborted = true
    · rw [if_pos hab] at h
      simp only [Prod.mk.injEq] at h
      obtain ⟨h1, _⟩ := h
      subst h1
      constructor
      · intro hc
        rcases List.mem_append.mp hc with hm | hm
        · rcases List.mem_append.mp hm with hm2 | hm2
          · exact hd hm2
          · simp at hm2
        · exact absurd (List.eq_of_mem_replicate hm) (by decide)
      · intro j hc
        rcases List.mem_append.mp hc with hm | hm
        · exact hevv j hm
        · exact procStep_no_condskip_event _ _ _ _ _ _ j hm
    · rw [if_neg hab, hns] at h
      refine ih _ _ _ _ h (fun p hp => hsim p (by simp [hp])) ?_ ?_
      · intro hc
        rcases List.mem_append.mp hc with hm | hm
        · exact hd hm
        · simp at hm
      · intro j hc
        rcases List.mem_append.mp hc with hm | hm
        · exact hevv j hm
        · exact procStep_no_condskip_event _ _ _ _ _ _ j hm

/-- C10: a conditional executed by the deterministic simulation backend
always yields `evaluated_to = true` and `branch_taken = continue`; hence
in a run whose conditional outcomes all come from the simulation backend
no step is ever skipped by conditional branching (no flag-skip and no
`conditional_branch_false` event). -/
theorem c10_simulated_conditional :
    (∀ (c : Option String) (t : String),
        (simulateConditional c t).evaluatedTo = true
        ∧ (simulateConditional c t).branchTaken = "continue")
  ∧ (∀ (steps : List StepRec) (oracles : List StepOracle),
      (∀ p ∈ steps.zip oracles, p.1.action = "conditional" →
          p.2.first = .ok (simulateConditional p.1.condition p.1.target).toRJson) →
      Disp.flagSkipped ∉ (executeRun steps oracles).disps
      ∧ ∀ j, Event.stepSkipped j (some "conditional_branch_false")
          ∉ (executeRun steps oracles).events) := by
  constructor
  · intro c t
    exact ⟨rfl, rfl⟩
  · intro steps oracles hsim
    unfold executeRun
    rcases hE : execLoop false 0 (initAcc steps.length) (steps.zip oracles) with ⟨acc, b⟩
    have hL := execLoop_sim_no_condskip _ _ _ _ _ hE
      (fun p hp hA => hsim p hp hA)
      (by simp [initAcc])
      (by
        intro j hc
        simp [initAcc] at hc)
    cases b with
    | true =>
      simp only [finishRun]
      exact hL
    | false =>
      simp only [finishRun]
      refine ⟨hL.1, ?_⟩
      intro j hc
      rcases List.mem_append.mp hc with hm | hm
      · exact hL.2 j hm
      · simp at hm

/-- The loop only appends events, and every event it appends from index
`idx` on carries an id at least `idx` (or none). -/
theorem execLoop_events_suffix :
    ∀ (l : List (StepRec × StepOracle)) (flag : Bool) (idx : Nat)
      (acc acc2 : EngAcc) (b : Bool),
      execLoop flag idx acc l = (acc2, b) →
      ∃ tail, acc2.events = acc.events ++ tail
        ∧ ∀ e ∈ tail, ∀ j, e.idOf = some j → idx ≤ j := by
  intro l
  induction l with
  | nil =>
    intro flag idx acc acc2 b h
    simp only [execLoop, Prod.mk.injEq] at h
    obtain ⟨h1, _⟩ := h
    subst h1
    exact ⟨[], by simp, by simp⟩
  | cons p rest ih =>
    obtain ⟨s, o⟩ := p
    intro flag idx acc acc2 b h
    simp only [execLoop] at h
    cases flag with
    | true =>
      rw [if_pos rfl] at h
      obtain ⟨t, ht, hids⟩ := ih _ _ _ _ _ h
      refine ⟨[.stepSkipped idx (some "conditional_branch_false")] ++ t, ?_, ?_⟩
      · rw [ht]
        simp
      · intro e he j hj
        rcases List.mem_append.mp he with hm | hm
        · simp only [List.mem_singleton] at hm
          subst hm
          simp only [Event.idOf, Option.some.injEq] at hj
          omega
        · have := hids e hm j hj
          omega
    | false =>
      rw [if_neg Bool.false_ne_true] at h
      by_cases hab : (procStep idx s.action o acc.cs acc.statuses rest.length).aborted = true
      · rw [if_pos hab] at h
        simp only [Prod.mk.injEq] at h
        obtain ⟨h1, _⟩ := h
        subst h1
        refine ⟨(procStep idx s.action o acc.cs acc.statuses rest.length).events, rfl, ?_⟩
        intro e he j hj
        rcases procStep_events_id _ _ _ _ _ _ e he with hid | hid
        · rw [hid] at hj
          cases hj
          omega
        · rw [hid] at hj
          cases hj
      · rw [if_neg hab] at h
        obtain ⟨t, ht, hids⟩ := ih _ _ _ _ _ h
        refine ⟨(procStep idx s.action o acc.cs acc.statuses rest.length).events ++ t, ?_, ?_⟩
        · rw [ht]
          simp
        · intro e he j hj
          rcases List.mem_append.mp he with hm | hm
          · rcases procStep_events_id _ _ _ _ _ _ e hm with hid | hid
            · rw [hid] at hj
              cases hj
              omega
            · rw [hid] at hj
              cases hj
          · have := hids e hm j hj
            omega

/-- Within the loop, a failed step healed on its re-execution produces
exactly the event sequence started, failed, started, completed, healed,
and makes no resolution request. -/
theorem execLoop_heal_events :
    ∀ (l : List (StepRec × StepOracle)) (flag : Bool) (idx : Nat)
      (acc acc2 : EngAcc) (b : Bool),
      execLoop flag idx acc l = (acc2, b) →
      idx = acc.disps.length →
      eventsIdLt acc.events idx →
      (∀ r ∈ acc.reqs, r < idx) →
      ∀ (pos : Nat) (s : StepRec) (o : StepOracle),
        l.get? pos = some (s, o) →
        (∃ m, o.first = .err m) →
        o.healAvail = true →
        (∃ r0, o.healExec = .ok r0) →
        acc2.disps.get? (idx + pos) = some .executed →
        filterById (idx + pos) acc2.events
          = [.stepStarted (idx + pos), .stepFailed (idx + pos), .stepStarted (idx + pos),
             .stepCompleted (idx + pos), .stepHealed (idx + pos)]
        ∧ (idx + pos) ∉ acc2.reqs := by
  intro l
  induction l with
  | nil =>
    intro flag idx acc acc2 b h _ _ _ pos s o hget
    simp at hget
  | cons p rest ih =>
    obtain ⟨s0, o0⟩ := p
    intro flag idx acc acc2 b h hidx hev hrq pos s o hget hfail hheal hhealok hd
    subst hidx
    simp only [execLoop] at h
    cases flag with
    | true =>
      rw [if_pos rfl] at h
      cases pos with
      | zero =>
        exfalso
        obtain ⟨d, hdp⟩ := execLoop_disps_extend _ _ _ _ _ _ h
        simp only [hdp] at hd
        rw [Nat.add_zero, List.get?_append (by simp), List.get?_concat_length] at hd
        cases hd
      | succ p2 =>
        have harith : acc.disps.length + (p2 + 1) = acc.disps.length + 1 + p2 := by omega
        rw [harith] at hd ⊢
        refine ih _ _ _ _ _ h (by simp) ?_ ?_ p2 s o (by simpa using hget)
          hfail hheal hhealok hd
        · intro e he j hj
          rcases List.mem_append.mp he with hm | hm
          · exact Nat.lt_succ_of_lt (hev e hm j hj)
          · simp only [List.mem_singleton] at hm
            subst hm
            simp only [Event.idOf, Option.some.injEq] at hj
            omega
        · intro r hr
          exact Nat.lt_succ_of_lt (hrq r hr)
    | false =>
      rw [if_neg Bool.false_ne_true] at h
      cases pos with
      | zero =>
        rw [Nat.add_zero] at hd ⊢
        have hso : s0 = s ∧ o0 = o := by simpa using hget
        obtain ⟨rfl, rfl⟩ := hso
        obtain ⟨m, hm⟩ := hfail
        obtain ⟨r0, hr0⟩ := hhealok
        have hps : procStep acc.disps.length s0.action o0 acc.cs acc.statuses rest.length
            = { newCs := acc.cs + 1, finalStatus := "completed",
                events := [.stepStarted acc.disps.length, .stepFailed acc.disps.length,
                           .stepStarted acc.disps.length, .stepCompleted acc.disps.length,
                           .stepHealed acc.disps.length],
                snaps := [mkSnap acc.statuses rest.length "running" acc.cs false,
                          mkSnap acc.statuses rest.length "failed" acc.cs false,
                          mkSnap acc.statuses rest.length "pending" acc.cs false,
                          mkSnap acc.statuses rest.length "running" acc.cs false,
                          mkSnap acc.statuses rest.length "completed" acc.cs true,
                          mkSnap acc.statuses rest.length "completed" (acc.cs + 1) false],
                requested := false, newSkip := false, aborted := false } := by
          simp [procStep, hm, hheal, hr0]
        rw [hps] at h
        simp only [List.append_nil, Bool.false_eq_true, if_false, if_neg] at h
        obtain ⟨t, ht, hidst⟩ := execLoop_events_suffix _ _ _ _ _ _ h
        simp only at ht
        constructor
        · rw [ht, filterById_append, filterById_append]
          have h1 : filterById acc.disps.length acc.events = [] :=
            filterById_nil_of _ _ (fun e he hc => absurd (hev e he _ hc) (lt_irrefl _))
          have h3 : filterById acc.disps.length t = [] :=
            filterById_nil_of _ _ (fun e he hc => by
              have := hidst e he _ hc
              omega)
          rw [h1, h3]
          simp [filterById, Event.idOf]
        · intro hc
          rcases execLoop_reqs_mono _ _ _ _ _ _ h _ hc with hmem | hge
          · simp only at hmem
            exact absurd (hrq _ hmem) (lt_irrefl _)
          · omega
      | succ p2 =>
        by_cases hab :
            (procStep acc.disps.length s0.action o0 acc.cs acc.statuses rest.length).aborted
              = true
        · rw [if_pos hab] at h
          simp only [Prod.mk.injEq] at h
          obtain ⟨h1, _⟩ := h
          subst h1
          exfalso
          simp only [List.append_assoc] at hd
          rw [List.get?_append_right (by omega)] at hd
          have hidx2 : acc.disps.length + (p2 + 1) - acc.disps.length = p2 + 1 := by omega
          rw [hidx2] at hd
          rw [List.get?_append_right (by simp)] at hd
          have hidx3 : p2 + 1 - ([Disp.executed] : List Disp).length = p2 := by simp
          rw [hidx3, get?_replicate] at hd
          split at hd
          · cases hd
          · cases hd
        · rw [if_neg hab] at h
          have harith : acc.disps.length + (p2 + 1) = acc.disps.length + 1 + p2 := by omega
          rw [harith] at hd ⊢
          refine ih _ _ _ _ _ h (by simp) ?_ ?_ p2 s o (by simpa using hget)
            hfail hheal hhealok hd
          · intro e he j hj
            rcases List.mem_append.mp he with hm2 | hm2
            · exact Nat.lt_succ_of_lt (hev e hm2 j hj)
            · rcases procStep_events_id _ _ _ _ _ _ e hm2 with hid | hid
              · rw [hid] at hj
                cases hj
                omega
              · rw [hid] at hj
                cases hj
          · intro r hr
            rcases List.mem_append.mp hr with hm2 | hm2
            · exact Nat.lt_succ_of_lt (hrq r hm2)
            · split at hm2
              · simp only [List.mem_singleton] at hm2
                omega
              · cases hm2

/-- C3 amended: for a step that fails and is then successfully
self-healed, the subscriber stream for that step is exactly
`step_started, step_failed, step_started, step_completed, step_healed` —
`step_failed` comes first and `step_healed` follows the retry's
`step_completed` (not the other way around) — and no resolution request
is made for the step. -/
theorem c3_healed_step_amended (steps : List StepRec) (oracles : List StepOracle)
    (i : Nat) (s : StepRec) (o : StepOracle)
    (hget : (steps.zip oracles).get? i = some (s, o))
    (hfail : ∃ m, o.first = .err m)
    (hheal : o.healAvail = true)
    (hhealok : ∃ r0, o.healExec = .ok r0)
    (hexec : (executeRun steps oracles).disps.get? i = some .executed) :
    filterById i (executeRun steps oracles).events
      = [.stepStarted i, .stepFailed i, .stepStarted i, .stepCompleted i, .stepHealed i]
    ∧ i ∉ (executeRun steps oracles).reqs := by
  revert hexec
  unfold executeRun
  rcases hE : execLoop false 0 (initAcc steps.length) (steps.zip oracles) with ⟨acc, b⟩
  have key := execLoop_heal_events _ _ _ _ _ _ hE (by simp [initAcc])
    (by
      intro e he j hj
      simp only [initAcc, List.mem_singleton] at he
      subst he
      simp [Event.idOf] at hj)
    (by
      intro r hr
      simp [initAcc] at hr)
    i s o hget hfail hheal hhealok
  simp only [Nat.zero_add] at key
  cases b with
  | true =>
    intro hexec
    simp only [finishRun] at hexec ⊢
    simpa using key hexec
  | false =>
    intro hexec
    simp only [finishRun] at hexec ⊢
    obtain ⟨hf, hr⟩ := key hexec
    constructor
    · rw [filterById_append, hf,
          filterById_nil_of _ _ (by
            intro e he
            simp only [List.mem_singleton] at he
            subst he
            simp [Event.idOf]),
          List.append_nil]
    · simpa using hr

/-- Witness for `c3_healed_step_amended` at a concrete healed run. -/
theorem c3_healed_step_amended_witness :
    ((([clickStep] : List StepRec).zip [healOkOracle]).get? 0 = some (clickStep, healOkOracle))
  ∧ (filterById 0 (executeRun [clickStep] [healOkOracle]).events
      = [.stepStarted 0, .stepFailed 0, .stepStarted 0, .stepCompleted 0, .stepHealed 0]
     ∧ 0 ∉ (executeRun [clickStep] [healOkOracle]).reqs) :=
  ⟨by decide,
   c3_healed_step_amended [clickStep] [healOkOracle] 0 clickStep healOkOracle (by decide)
     ⟨"ElementNotFound", by decide⟩ (by decide) ⟨⟨none, none⟩, by decide⟩ (by decide)⟩

/-- Witness for `c10_simulated_conditional` at a concrete simulated run. -/
theorem c10_simulated_conditional_witness :
    ((simulateConditional (some "5 > 10") "").evaluatedTo = true
      ∧ (simulateConditional (some "5 > 10") "").branchTaken = "continue")
  ∧ (Disp.flagSkipped ∉ (executeRun [condStep, clickStep] [simCondOracle, okOracle]).disps
      ∧ ∀ j, Event.stepSkipped j (some "conditional_branch_false")
          ∉ (executeRun [condStep, clickStep] [simCondOracle, okOracle]).events) :=
  ⟨c10_simulated_conditional.1 (some "5 > 10") "",
   c10_simulated_conditional.2 [condStep, clickStep] [simCondOracle, okOracle] (by decide)⟩

end FlowPilot
